import Mathlib

/-! Decoding engine and generation loop of tokchat.

A shallow embedding of `src/sampling.cpp`, `src/main.cpp`, `src/chat_format.cpp` and of
`LlamaBackend::eval` / `LlamaBackend::reset` in `src/llama_backend.cpp`.

Conventions of the embedding:

* `float` values are exact rationals (`ℚ`); the arithmetic of the code is read as exact
  arithmetic, so infinities and NaN are outside the model.  Of `std::exp` only the bounds
  `StdLib.ExpBounds` are used, which a rounding `exp` meets too (`roundingStd`).
* `int32_t` token ids and `int` parameters are `Int`.  Vector sizes are vocabulary sizes,
  which the backend interface reports as an `int32_t`, so the casts `(int32_t)i` and
  `(int)indices.size()` are value preserving.
* `std::vector` / `std::deque` are `List`; in-place updates return the new list.
* Library routines whose result the C++ standard leaves partly open (`std::nth_element`,
  `std::sort`) and `std::exp` are parameters, collected in `StdLib`; `StdLib.Lawful` states
  the standard's contract and `refStd` is a reference implementation that satisfies it.
-/

namespace Tokchat

/-! ## Penalty compositor (`apply_repeat_frequency_presence`) -/

/-- The `std::unordered_map<int32_t,int> freq`: `none` is an absent key. -/
abbrev FreqMap := Int → Option Nat

/-- The freshly constructed map. -/
def FreqMap.empty : FreqMap := fun _ => none

/-- The statement `++freq[t]`: `operator[]` inserts a zero for an absent key, then increments. -/
def FreqMap.incr (m : FreqMap) (t : Int) : FreqMap :=
  fun k => if k = t then some ((m t).getD 0 + 1) else m k

/-- The loop `for (auto t : recent) ++freq[t];`. -/
def count_frequencies (recent : List Int) : FreqMap :=
  recent.foldl FreqMap.incr FreqMap.empty

/-- Body of the loop over `i` in `apply_repeat_frequency_presence` (lines 22-32). -/
def penalize_entry (freq : FreqMap) (repeat_penalty frequency_penalty presence_penalty : ℚ)
    (i : Nat) (x : ℚ) : ℚ :=
  match freq (i : Int) with
  | none => x
  | some c =>
    let x1 := if repeat_penalty ≠ 1 then (if x > 0 then x / repeat_penalty else x * repeat_penalty)
              else x
    let x2 := x1 - frequency_penalty * (c : ℚ)
    x2 - presence_penalty * 1

/-- The loop `for (size_t i = 0; i < logits.size(); ++i)`, started at index `i`. -/
def penalty_loop (freq : FreqMap) (repeat_penalty frequency_penalty presence_penalty : ℚ) :
    Nat → List ℚ → List ℚ
  | _, [] => []
  | i, x :: xs =>
    penalize_entry freq repeat_penalty frequency_penalty presence_penalty i x ::
      penalty_loop freq repeat_penalty frequency_penalty presence_penalty (i + 1) xs

/-- The function `apply_repeat_frequency_presence`; the result is the vector after the in-place update. -/
def apply_repeat_frequency_presence (logits : List ℚ) (recent : List Int)
    (repeat_penalty frequency_penalty presence_penalty : ℚ) : List ℚ :=
  if recent.isEmpty then logits
  else penalty_loop (count_frequencies recent) repeat_penalty frequency_penalty presence_penalty 0 logits

/-- The two vectors alive after lines 50-54 of `sample_next_token`: the caller's `logits_in`
(a `const&`) and the local copy `logits` that the penalty step mutates. -/
structure PenaltyFrame where
  logits_in : List ℚ
  logits : List ℚ

/-- Lines 50-54 of `sample_next_token`: copy, then penalise the copy. -/
def penalty_step (logits_in : List ℚ) (recent_tokens : List Int)
    (repeat_penalty frequency_penalty presence_penalty : ℚ) : PenaltyFrame :=
  let logits := logits_in
  { logits_in := logits_in
    logits := apply_repeat_frequency_presence logits recent_tokens repeat_penalty
      frequency_penalty presence_penalty }

/-- The base value the claim names for a repeated token. -/
def repeat_base (repeat_penalty x : ℚ) : ℚ :=
  if repeat_penalty = 1 then x else if x > 0 then x / repeat_penalty else x * repeat_penalty

/-! ## Library routines used by `sample_next_token` -/

/-- The library routines of `sample_next_token` that the source does not define:
`std::exp`, `std::nth_element`, `std::sort` and a draw of
`std::uniform_real_distribution<float>(0,1)` from the `thread_local std::mt19937`
(whose state has type `σ`). -/
structure StdLib (σ : Type) where
  exp : ℚ → ℚ
  nth_element : (Int → Int → Bool) → Nat → List Int → List Int
  sort : (Int × ℚ → Int × ℚ → Bool) → List (Int × ℚ) → List (Int × ℚ)
  uniform01 : σ → ℚ × σ

/-- The contract the C++ standard gives for the routines, for comparators of the form
"larger key first" (both lambdas of `sample_next_token` have this form):
* `nth_element(first, first + n, last, comp)` permutes the range so that no element at or
  after position `n` is ordered before an element in front of position `n`;
* `sort` permutes the range so that no later element is ordered before an earlier one;
* the uniform draw lies in `[0, 1)`. -/
structure StdLib.Lawful {σ : Type} (L : StdLib σ) : Prop where
  nth_perm : ∀ (key : Int → ℚ) (n : Nat) (l : List Int),
    (L.nth_element (fun a b => decide (key a > key b)) n l).Perm l
  nth_part : ∀ (key : Int → ℚ) (n : Nat) (l : List Int) (a b : Int),
    a ∈ (L.nth_element (fun a b => decide (key a > key b)) n l).take n →
    b ∈ (L.nth_element (fun a b => decide (key a > key b)) n l).drop n → key b ≤ key a
  sort_perm : ∀ (key : Int × ℚ → ℚ) (l : List (Int × ℚ)),
    (L.sort (fun a b => decide (key a > key b)) l).Perm l
  sort_sorted : ∀ (key : Int × ℚ → ℚ) (l : List (Int × ℚ)),
    (L.sort (fun a b => decide (key a > key b)) l).Pairwise (fun a b => key b ≤ key a)
  uniform01_range : ∀ rng : σ, 0 ≤ (L.uniform01 rng).1 ∧ (L.uniform01 rng).1 < 1

/-- Insertion of `x` in front of the first element that `cmp` does not order before it. -/
def ref_insert {α : Type} (cmp : α → α → Bool) (x : α) : List α → List α
  | [] => [x]
  | y :: ys => if cmp y x then y :: ref_insert cmp x ys else x :: y :: ys

/-- A stable insertion sort, the reference implementation of `std::sort`. -/
def ref_sort {α : Type} (cmp : α → α → Bool) (l : List α) : List α :=
  l.foldr (ref_insert cmp) []

/-- A stand-in for `std::exp` on rationals: positive, monotone, `1` at `0`. -/
def ref_exp (x : ℚ) : ℚ := if 0 ≤ x then 1 + x else 1 / (1 - x)

/-- A reference library: sorting implements both `nth_element` and `sort`; the random
source is a stream of pre-drawn values, folded into `[0, 1)`. -/
def refStd : StdLib (List ℚ) where
  exp := ref_exp
  nth_element := fun cmp _ l => ref_sort cmp l
  sort := fun cmp l => ref_sort cmp l
  uniform01 := fun rng => (Int.fract (rng.headD 0), rng.tail)

/-- What the claims about weights use of `std::exp`: `exp 0 = 1`, no negative value, and no
value above `1` at a non-positive argument.  Strict monotonicity is not among them: a
binary32 `exp` returns exactly `1` at small negative arguments. -/
structure StdLib.ExpBounds {σ : Type} (L : StdLib σ) : Prop where
  exp_zero : L.exp 0 = 1
  exp_nonneg : ∀ x, 0 ≤ L.exp x
  exp_le_one : ∀ x, x ≤ 0 → L.exp x ≤ 1

/-- A stand-in for a binary32 `std::exp`: on `[-2^-25, 0]`, where the exponential lies within
half a unit in the last place of `1`, it returns exactly `1`; elsewhere it is `ref_exp`. -/
def rounded_exp (x : ℚ) : ℚ :=
  if 0 ≤ x then 1 + x else if -(1 / 33554432) ≤ x then 1 else 1 / (1 - x)

/-- The reference library with the rounding exponential. -/
def roundingStd : StdLib (List ℚ) := { refStd with exp := rounded_exp }

/-! ## Token sampler (`sample_next_token`) -/

/-- The scan of `std::max_element`: `best` is the position of the largest element so far,
replaced only by a strictly larger one. -/
def max_element_loop (best : Nat) (bestv : ℚ) : Nat → List ℚ → Nat
  | _, [] => best
  | i, x :: xs =>
    if bestv < x then max_element_loop i x (i + 1) xs
    else max_element_loop best bestv (i + 1) xs

/-- The position returned by `std::max_element(v.begin(), v.end())`; `end()` (position `0`)
for an empty vector. -/
def max_element (v : List ℚ) : Nat :=
  match v with
  | [] => 0
  | x :: xs => max_element_loop 0 x 1 xs

/-- The function `greedy_argmax`: `std::distance(begin, max_element(begin, end))`. -/
def greedy_argmax (logits : List ℚ) : Int := (max_element logits : Int)

/-- Lines 62-66: `probs[i] = exp((logits[i] - max_logit) / temperature)`. -/
def softmax_weights {σ : Type} (L : StdLib σ) (logits : List ℚ) (temperature : ℚ) : List ℚ :=
  let max_logit := logits.getD (max_element logits) 0
  logits.map (fun x => L.exp ((x - max_logit) / temperature))

/-- The sequence `0, 1, ..., n-1` written by `std::iota`. -/
def iota (n : Nat) : List Int := (List.range n).map Int.ofNat

/-- The access `probs[a]` for an `int` index. -/
def prob_at (probs : List ℚ) (a : Int) : ℚ := probs.getD a.toNat 0

/-- The method `std::vector::resize(n)`: truncate, or pad with value-initialised elements. -/
def resize {α : Type} (l : List α) (n : Nat) (d : α) : List α :=
  l.take n ++ List.replicate (n - l.length) d

/-- Lines 69-76: the indices kept by the top-k filter. -/
def top_k_indices {σ : Type} (L : StdLib σ) (probs : List ℚ) (top_k : Int) : List Int :=
  let indices := iota probs.length
  if top_k > 0 ∧ (indices.length : Int) > top_k then
    let indices := L.nth_element (fun a b => decide (prob_at probs a > prob_at probs b))
      top_k.toNat indices
    resize indices top_k.toNat 0
  else indices

/-- Lines 79-81: `cand.emplace_back(i, probs[i])` for every kept index. -/
def gather (probs : List ℚ) (indices : List Int) : List (Int × ℚ) :=
  indices.map (fun i => (i, prob_at probs i))

/-- Lines 69-84: the candidates after top-k and the descending sort. -/
def sorted_candidates {σ : Type} (L : StdLib σ) (probs : List ℚ) (top_k : Int) :
    List (Int × ℚ) :=
  L.sort (fun a b => decide (a.2 > b.2)) (gather probs (top_k_indices L probs top_k))

/-- The loop of lines 90-93, started at index `i` with running sum `cum`; `none` when the
loop ends without `break` (so `cutoff` keeps its initial value). -/
def nucleus_cutoff (top_p : ℚ) : ℚ → Nat → List (Int × ℚ) → Option Nat
  | _, _, [] => none
  | cum, i, kv :: rest =>
    let cum := cum + kv.2
    if cum ≥ top_p then some (i + 1) else nucleus_cutoff top_p cum (i + 1) rest

/-- Lines 87-95: the top-p filter. -/
def top_p_filter (top_p : ℚ) (cand : List (Int × ℚ)) : List (Int × ℚ) :=
  if top_p < 1 then
    let cutoff := (nucleus_cutoff top_p 0 0 cand).getD cand.length
    resize cand (max 1 cutoff) (0, 0)
  else cand

/-- Lines 98-99: `for (auto& kv : cand) sum += kv.second`. -/
def cand_sum (cand : List (Int × ℚ)) : ℚ := cand.foldl (fun sum kv => sum + kv.2) 0

/-- Line 104: `for (auto& kv : cand) kv.second /= sum`. -/
def normalize (cand : List (Int × ℚ)) (sum : ℚ) : List (Int × ℚ) :=
  cand.map (fun kv => (kv.1, kv.2 / sum))

/-- The loop of lines 111-114 with accumulator `acc`; `none` when it ends without `return`. -/
def sample_walk (r : ℚ) : ℚ → List (Int × ℚ) → Option Int
  | _, [] => none
  | acc, kv :: rest =>
    let acc := acc + kv.2
    if r ≤ acc then some kv.1 else sample_walk r acc rest

/-- Lines 110-115: the walk, then `cand.back().first`; `none` is `back()` of an empty vector. -/
def draw (cand : List (Int × ℚ)) (r : ℚ) : Option Int :=
  match sample_walk r 0 cand with
  | some t => some t
  | none => cand.getLast?.map (fun kv => kv.1)

/-- Lines 62-95: the candidate list after top-k, sort and top-p, from the adjusted logits. -/
def nucleus_candidates {σ : Type} (L : StdLib σ) (logits : List ℚ) (temperature : ℚ)
    (top_k : Int) (top_p : ℚ) : List (Int × ℚ) :=
  top_p_filter top_p (sorted_candidates L (softmax_weights L logits temperature) top_k)

/-- Lines 62-104 on the non-fallback path: the candidates with their weights divided by the
sum of the retained weights. -/
def final_candidates {σ : Type} (L : StdLib σ) (logits : List ℚ) (temperature : ℚ)
    (top_k : Int) (top_p : ℚ) : List (Int × ℚ) :=
  normalize (nucleus_candidates L logits temperature top_k top_p)
    (cand_sum (nucleus_candidates L logits temperature top_k top_p))

/-- The running sum of the probabilities of the candidates `0, ..., i` (candidate `i`
included), as the spec words the cumulative draw. -/
def running_sum (cand : List (Int × ℚ)) (i : Nat) : ℚ :=
  ((cand.take (i + 1)).map Prod.snd).sum

/-- The function `sample_next_token`.  The result carries the state of the random source after
the call; `none` is undefined behaviour (dereferencing `max_element` of an empty vector). -/
def sample_next_token {σ : Type} (L : StdLib σ) (rng : σ) (logits_in : List ℚ)
    (recent_tokens : List Int) (temperature : ℚ) (top_k : Int) (top_p : ℚ)
    (repeat_penalty frequency_penalty presence_penalty : ℚ) : Option (Int × σ) :=
  let logits := (penalty_step logits_in recent_tokens repeat_penalty frequency_penalty
    presence_penalty).logits
  if temperature ≤ 0 then some (greedy_argmax logits, rng)
  else if logits = [] then none
  else
    let cand := nucleus_candidates L logits temperature top_k top_p
    let sum := cand_sum cand
    if sum ≤ 0 then some (greedy_argmax logits, rng)
    else
      let cand := normalize cand sum
      let rr := L.uniform01 rng
      (draw cand rr.1).map (fun t => (t, rr.2))

/-! ## Context window (`recent`, `recent_max` in `main`) -/

/-- The statements `recent.push_back(t); if (recent.size() > recent_max) recent.pop_front();`
for a capacity `C`. -/
def window_push (C : Nat) (recent : List Int) (t : Int) : List Int :=
  let recent := recent ++ [t]
  if recent.length > C then recent.drop 1 else recent

/-- Pushing a sequence of tokens, in order. -/
def window_push_all (C : Nat) (recent : List Int) (ts : List Int) : List Int :=
  ts.foldl (window_push C) recent

/-- The constant `recent_max` of `main`. -/
def recent_max : Nat := 2048

/-- The constant `chunk` of `main`. -/
def chunk : Nat := 512

/-! ## Prompt builder (`build_prompt`) -/

/-- The struct `ChatMessage`. -/
structure ChatMessage where
  role : String
  content : String
deriving DecidableEq

/-- The first loop of `build_prompt`: the system messages joined by newlines. -/
def collect_system (messages : List ChatMessage) : String :=
  messages.foldl (fun system m =>
    if m.role = "system" then
      (if system ≠ "" then system ++ "\n" else system) ++ m.content
    else system) ""

/-- The second loop of `build_prompt`, with the flag `first_user` and the stream `oss`. -/
def build_loop (system : String) : Bool → String → List ChatMessage → String
  | _, oss, [] => oss
  | first_user, oss, m :: rest =>
    if m.role = "user" then
      if first_user then
        let oss := oss ++ "[INST] "
        let oss := if system ≠ "" then oss ++ "<<SYS>>\n" ++ system ++ "\n<</SYS>>\n" else oss
        build_loop system false (oss ++ m.content ++ " [/INST]\n") rest
      else build_loop system first_user (oss ++ "[INST] " ++ m.content ++ " [/INST]\n") rest
    else if m.role = "assistant" then build_loop system first_user (oss ++ m.content ++ "\n") rest
    else build_loop system first_user oss rest

/-- The function `build_prompt`. -/
def build_prompt (messages : List ChatMessage) : String :=
  build_loop (collect_system messages) true "" messages

/-- One iteration of the second loop of `build_prompt`, as a function on the pair of the
flag `first_user` and the stream `oss`. -/
def build_step (system : String) (st : Bool × String) (m : ChatMessage) : Bool × String :=
  if m.role = "user" then
    if st.1 then
      let oss := st.2 ++ "[INST] "
      let oss := if system ≠ "" then oss ++ "<<SYS>>\n" ++ system ++ "\n<</SYS>>\n" else oss
      (false, oss ++ m.content ++ " [/INST]\n")
    else (st.1, st.2 ++ "[INST] " ++ m.content ++ " [/INST]\n")
  else if m.role = "assistant" then (st.1, st.2 ++ m.content ++ "\n")
  else st

/-! ## Generation loop (`main`) -/

/-- The interface `ModelBackend`, over a backend state `β`; every non-`const` method
returns the state it leaves behind. -/
structure ModelBackend (β : Type) where
  tokenize : β → String → Bool → List Int × β
  detokenize : β → List Int → String × β
  reset : β → β
  eval : β → List Int → Bool × β
  logits : β → List ℚ × β
  eos_token : β → Int

/-- The generation fields of `CliArgs`. -/
structure CliArgs where
  max_new_tokens : Int := 512
  temperature : ℚ := 7 / 10
  top_k : Int := 40
  top_p : ℚ := 19 / 20
  repeat_penalty : ℚ := 11 / 10
  frequency_penalty : ℚ := 0
  presence_penalty : ℚ := 0

/-- What a turn does that is visible from outside, in order. -/
inductive Event where
  | tokenize (text : String)
  | reset
  | eval (tokens : List Int) (ok : Bool)
  | logits
  | sample (token : Int)
  | detokenize (tokens : List Int)
  | cout (text : String)
  | cerr (text : String)
deriving DecidableEq

/-- The state that `main` carries through a turn: the backend, the random source, `history`,
`recent`, the locals `partial_text` and `out_tokens` of the turn, and the log of events. -/
structure Session (β σ : Type) where
  backend : β
  rng : σ
  history : List ChatMessage
  recent : List Int
  partial_text : String
  out_tokens : List Int
  trace : List Event

/-- The prompt loop of lines 94-105 from index `i`; `fuel` bounds the number of iterations. -/
def prompt_loop {β σ : Type} (B : ModelBackend β) (prompt_tokens : List Int) :
    Nat → Nat → Session β σ → Session β σ
  | 0, _, s => s
  | fuel + 1, i, s =>
    if i < prompt_tokens.length then
      let e := min prompt_tokens.length (i + chunk)
      let span := (prompt_tokens.drop i).take (e - i)
      let r := B.eval s.backend span
      if !r.1 then
        { s with backend := r.2
                 trace := s.trace ++ [Event.eval span false, Event.cerr "\nEval error on prompt.\n"] }
      else
        prompt_loop B prompt_tokens fuel (i + chunk)
          { s with backend := r.2
                   recent := window_push_all recent_max s.recent span
                   trace := s.trace ++ [Event.eval span true] }
    else s

/-- The decode loop of lines 113-146 with `fuel` iterations left; `none` is undefined
behaviour inside `sample_next_token`. -/
def decode_loop {β σ : Type} (L : StdLib σ) (B : ModelBackend β) (args : CliArgs) (eos : Int) :
    Nat → Session β σ → Option (Session β σ)
  | 0, s => some s
  | fuel + 1, s =>
    let lg := B.logits s.backend
    match sample_next_token L s.rng lg.1 s.recent args.temperature args.top_k args.top_p
        args.repeat_penalty args.frequency_penalty args.presence_penalty with
    | none => none
    | some (next, rng) =>
      if next = eos then
        some { s with backend := lg.2, rng := rng
                      trace := s.trace ++ [Event.logits, Event.sample next] }
      else
        let dt := B.detokenize lg.2 [next]
        let ev := B.eval dt.2 [next]
        if !ev.1 then
          some { s with backend := ev.2, rng := rng
                        out_tokens := s.out_tokens ++ [next]
                        partial_text := s.partial_text ++ dt.1
                        trace := s.trace ++ [Event.logits, Event.sample next,
                          Event.detokenize [next], Event.cout dt.1, Event.eval [next] false,
                          Event.cerr "\nEval error during generation.\n"] }
        else
          decode_loop L B args eos fuel
            { s with backend := ev.2, rng := rng
                     out_tokens := s.out_tokens ++ [next]
                     partial_text := s.partial_text ++ dt.1
                     recent := window_push recent_max s.recent next
                     trace := s.trace ++ [Event.logits, Event.sample next,
                       Event.detokenize [next], Event.cout dt.1, Event.eval [next] true] }

/-- The body of the `while` loop of `main` for a non-empty input line other than `/exit`
(lines 84-149). -/
def turn {β σ : Type} (L : StdLib σ) (B : ModelBackend β) (args : CliArgs)
    (user_input : String) (s : Session β σ) : Option (Session β σ) :=
  let history := s.history ++ [⟨"user", user_input⟩]
  let prompt := build_prompt history
  let tk := B.tokenize s.backend prompt true
  let prompt_tokens := tk.1
  let s1 : Session β σ :=
    { s with backend := B.reset tk.2, history := history
             trace := s.trace ++ [Event.tokenize prompt, Event.reset] }
  let s2 := prompt_loop B prompt_tokens prompt_tokens.length 0 s1
  let s3 : Session β σ :=
    { s2 with partial_text := "", out_tokens := []
              trace := s2.trace ++ [Event.cout "Assistant> "] }
  let eos := B.eos_token s3.backend
  match decode_loop L B args eos args.max_new_tokens.toNat s3 with
  | none => none
  | some s4 =>
    some { s4 with history := s4.history ++ [⟨"assistant", s4.partial_text⟩]
                   trace := s4.trace ++ [Event.cout "\n"] }

/-! ## A scripted backend for scenarios -/

/-- A backend whose state counts the calls of `eval` made so far: every text tokenizes to
`prompt`, every token detokenizes to `"a"`, `logits` always returns `lg`, and the calls of
`eval` whose number (from `0`) is listed in `fail_at` report failure. -/
def scripted_backend (prompt : List Int) (fail_at : List Nat) (lg : List ℚ) (eos : Int) :
    ModelBackend Nat where
  tokenize := fun b _ _ => (prompt, b)
  detokenize := fun b ts => (String.join (ts.map (fun _ => "a")), b)
  reset := fun b => b
  eval := fun b _ => (!(fail_at.contains b), b + 1)
  logits := fun b => (lg, b)
  eos_token := fun _ => eos

/-- The session at the first prompt of `main`: the system message only. -/
def initial_session : Session Nat (List ℚ) :=
  { backend := 0, rng := [], history := [⟨"system", "You are a helpful assistant."⟩],
    recent := [], partial_text := "", out_tokens := [], trace := [] }

/-- Whether an event is a request for logits or a call of `sample_next_token`. -/
def Event.is_sampling : Event → Bool
  | Event.logits => true
  | Event.sample _ => true
  | _ => false

/-- The length and outcome of a call of `eval`, for the other events nothing. -/
def Event.eval_summary : Event → Option (Nat × Bool)
  | Event.eval tokens ok => some (tokens.length, ok)
  | _ => none

/-- A turn whose prompt has 600 tokens (two chunks) and whose second call of `eval` fails;
greedy sampling over logits `[0, 1]`, end-of-sequence token `0`, a budget of two tokens. -/
def prompt_failure_turn : Option (Session Nat (List ℚ)) :=
  turn refStd (scripted_backend (List.replicate 600 7) [1] [0, 1] 0)
    { max_new_tokens := 2, temperature := 0 } "hi" initial_session

/-! ## Describing a turn by what it did -/

/-- The state of `main` when the prompt loop of a turn has ended (lines 84-105). -/
def turn_ingested {β σ : Type} (B : ModelBackend β) (user_input : String) (s : Session β σ) :
    Session β σ :=
  let history := s.history ++ [⟨"user", user_input⟩]
  let prompt := build_prompt history
  let tk := B.tokenize s.backend prompt true
  prompt_loop B tk.1 tk.1.length 0
    { s with backend := B.reset tk.2, history := history
             trace := s.trace ++ [Event.tokenize prompt, Event.reset] }

/-- The prompt tokens of a turn: `backend->tokenize(build_prompt(history), true)`. -/
def turn_prompt_tokens {β σ : Type} (B : ModelBackend β) (user_input : String)
    (s : Session β σ) : List Int :=
  (B.tokenize s.backend (build_prompt (s.history ++ [⟨"user", user_input⟩])) true).1

/-- The slice `prompt[512*j .. min(n, 512*(j+1)))` of the prompt. -/
def prompt_chunk (prompt_tokens : List Int) (j : Nat) : List Int :=
  (prompt_tokens.drop (chunk * j)).take
    (min prompt_tokens.length (chunk * (j + 1)) - chunk * j)

/-- The number `ceil(n / 512)` of chunks of a prompt of `n` tokens. -/
def num_chunks (n : Nat) : Nat := (n + (chunk - 1)) / chunk

/-- The events of a prompt loop that evaluated the chunks `0, ..., k-1` and then, if
`failed`, saw the evaluation of chunk `k` fail. -/
def ingest_events (prompt_tokens : List Int) (k : Nat) (failed : Bool) : List Event :=
  (List.range k).map (fun j => Event.eval (prompt_chunk prompt_tokens j) true) ++
    (if failed then
      [Event.eval (prompt_chunk prompt_tokens k) false, Event.cerr "\nEval error on prompt.\n"]
     else [])

/-- How the decode loop of a turn ended: the budget ran out, the end-of-sequence token was
sampled, or the evaluation of the sampled token `next` (streamed as `piece`) failed. -/
inductive DecodeEnd where
  | budget
  | eos
  | failed (next : Int) (piece : String)
deriving DecidableEq

/-- The events of a decoding step that sampled `tp.1`, streamed it as `tp.2` and evaluated it
successfully. -/
def step_events (tp : Int × String) : List Event :=
  [Event.logits, Event.sample tp.1, Event.detokenize [tp.1], Event.cout tp.2,
    Event.eval [tp.1] true]

/-- The events of the last, unfinished decoding step. -/
def DecodeEnd.events (eos : Int) : DecodeEnd → List Event
  | DecodeEnd.budget => []
  | DecodeEnd.eos => [Event.logits, Event.sample eos]
  | DecodeEnd.failed next piece =>
    [Event.logits, Event.sample next, Event.detokenize [next], Event.cout piece,
      Event.eval [next] false, Event.cerr "\nEval error during generation.\n"]

/-- The token that the unfinished step appended to `out_tokens`, if any. -/
def DecodeEnd.tokens : DecodeEnd → List Int
  | DecodeEnd.failed next _ => [next]
  | _ => []

/-- The text that the unfinished step streamed, if any. -/
def DecodeEnd.text : DecodeEnd → String
  | DecodeEnd.failed _ piece => piece
  | _ => ""

/-- The number of calls of `sample_next_token` in the unfinished step. -/
def DecodeEnd.samples : DecodeEnd → Nat
  | DecodeEnd.budget => 0
  | _ => 1

/-- Concatenation of streamed pieces, in order. -/
def join_pieces : List String → String
  | [] => ""
  | p :: ps => p ++ join_pieces ps

/-- The events of a decode loop that completed the steps `steps` and ended with `e`. -/
def decode_events (eos : Int) (steps : List (Int × String)) (e : DecodeEnd) : List Event :=
  (steps.map step_events).flatten ++ e.events eos

/-- The events of a whole turn, in order. -/
def turn_events (prompt : String) (prompt_tokens : List Int) (k : Nat) (failed : Bool)
    (eos : Int) (steps : List (Int × String)) (e : DecodeEnd) : List Event :=
  [Event.tokenize prompt, Event.reset] ++ ingest_events prompt_tokens k failed ++
    [Event.cout "Assistant> "] ++ decode_events eos steps e ++ [Event.cout "\n"]

/-- The tokens of an event that handed them to `eval`, whatever the outcome. -/
def Event.submitted : Event → List Int
  | Event.eval tokens _ => tokens
  | _ => []

/-- The tokens of an event whose `eval` succeeded. -/
def Event.accepted : Event → List Int
  | Event.eval tokens true => tokens
  | _ => []

/-- All tokens handed to `eval` in a list of events, in submission order. -/
def submitted_tokens (evs : List Event) : List Int := (evs.map Event.submitted).flatten

/-- All tokens of successful calls of `eval` in a list of events, in submission order. -/
def accepted_tokens (evs : List Event) : List Int := (evs.map Event.accepted).flatten

/-- Whether an event is a call of `sample_next_token`. -/
def Event.is_sample : Event → Bool
  | Event.sample _ => true
  | _ => false

/-- A turn with a two-token prompt in which the evaluation of the second sampled token
fails: greedy sampling over logits `[0, 1]`, end-of-sequence token `0`, budget `3`. -/
def generation_failure_turn : Option (Session Nat (List ℚ)) :=
  turn refStd (scripted_backend [7, 7] [2] [0, 1] 0)
    { max_new_tokens := 3, temperature := 0 } "hi" initial_session

/-- A turn that samples token `1` and then, because the repeat penalty `4` lowers the logit
of `1` from `2` to `1/2`, the end-of-sequence token `0`. -/
def eos_turn : Option (Session Nat (List ℚ)) :=
  turn refStd (scripted_backend [7, 7] [] [1, 2] 0)
    { max_new_tokens := 5, temperature := 0, repeat_penalty := 4 } "hi" initial_session

/-- A turn that uses up its budget of two tokens without failure or end of sequence. -/
def budget_turn : Option (Session Nat (List ℚ)) :=
  turn refStd (scripted_backend [7, 7] [] [0, 1] 0)
    { max_new_tokens := 2, temperature := 0 } "hi" initial_session

/-- A prompt loop over a 600-token prompt on a backend whose `eval` always succeeds. -/
def two_chunk_ingestion : Session Nat (List ℚ) :=
  prompt_loop (scripted_backend [] [] [0, 1] 0) (List.replicate 600 7) 600 0 initial_session

/-! ## The llama backend (`LlamaBackend::eval`, `LlamaBackend::reset`) -/

/-- One slot of a `llama_batch`, as filled by `LlamaBackend::eval`. -/
structure LlamaBatchEntry where
  token : Int
  pos : Int
  n_seq_id : Int
  seq_id : Int
  logits : Bool
deriving DecidableEq

/-- The functions of llama.cpp that `eval` and `reset` call, over a context state `κ`:
`llama_decode` returns its error code and the new context. -/
structure LlamaApi (κ : Type) where
  llama_decode : κ → List LlamaBatchEntry → Int × κ
  llama_kv_cache_clear : κ → κ

/-- The fields of `LlamaBackend` that `eval` and `reset` use: the context and the position
counter `pos_` (an `int`, initialised to `0`; a counter beyond the `int` range is outside the
model). -/
structure LlamaBackend (κ : Type) where
  ctx_ : κ
  pos_ : Int

/-- The loop of `eval` that fills the batch, from index `i`; `n` is `tokens.size()`. -/
def LlamaBackend.fill_batch (pos_ : Int) (n : Nat) : Nat → List Int → List LlamaBatchEntry
  | _, [] => []
  | i, t :: ts =>
    { token := t, pos := pos_ + (i : Int), n_seq_id := 1, seq_id := 0,
      logits := decide ((i : Int) = (n : Int) - 1) } ::
      LlamaBackend.fill_batch pos_ n (i + 1) ts

/-- The method `LlamaBackend::eval`: the result and the backend afterwards. -/
def LlamaBackend.eval {κ : Type} (A : LlamaApi κ) (b : LlamaBackend κ) (tokens : List Int) :
    Bool × LlamaBackend κ :=
  if tokens.isEmpty then (true, b)
  else
    let batch := LlamaBackend.fill_batch b.pos_ tokens.length 0 tokens
    let pos2 := b.pos_ + (tokens.length : Int)
    let r := A.llama_decode b.ctx_ batch
    (decide (r.1 = 0), { ctx_ := r.2, pos_ := pos2 })

/-- The method `LlamaBackend::reset`. -/
def LlamaBackend.reset {κ : Type} (A : LlamaApi κ) (b : LlamaBackend κ) : LlamaBackend κ :=
  { b with ctx_ := A.llama_kv_cache_clear b.ctx_ }

/-- A call that `main` makes on the backend during a session. -/
inductive BackendCall where
  | eval (tokens : List Int)
  | reset

/-- A session of calls: the backend afterwards and the batch entries handed to
`llama_decode`, in order. -/
def LlamaBackend.run {κ : Type} (A : LlamaApi κ) :
    LlamaBackend κ → List BackendCall → LlamaBackend κ × List LlamaBatchEntry
  | b, [] => (b, [])
  | b, BackendCall.eval tokens :: rest =>
    let r := LlamaBackend.run A (LlamaBackend.eval A b tokens).2 rest
    (r.1, (if tokens.isEmpty then [] else LlamaBackend.fill_batch b.pos_ tokens.length 0 tokens)
      ++ r.2)
  | b, BackendCall.reset :: rest => LlamaBackend.run A (LlamaBackend.reset A b) rest

/-- The tokens submitted by a list of calls, in order. -/
def BackendCall.tokens : List BackendCall → List Int
  | [] => []
  | BackendCall.eval tokens :: rest => tokens ++ BackendCall.tokens rest
  | BackendCall.reset :: rest => BackendCall.tokens rest

/-- A llama.cpp whose `llama_decode` always fails with error code `1`. -/
def failing_llama : LlamaApi Unit where
  llama_decode := fun c _ => (1, c)
  llama_kv_cache_clear := fun c => c

/-! ## Proofs: penalty compositor -/

theorem foldl_incr_apply (recent : List Int) (m : FreqMap) (k : Int) :
    recent.foldl FreqMap.incr m k =
      if recent.count k = 0 then m k else some ((m k).getD 0 + recent.count k) := by
  induction recent generalizing m with
  | nil => simp
  | cons t ts ih =>
    rw [List.foldl_cons, ih, List.count_cons]
    by_cases hk : t = k
    · subst hk
      by_cases hc : List.count t ts = 0
      · simp [hc, FreqMap.incr]
      · simp [hc, FreqMap.incr]; omega
    · have hk2 : ¬ k = t := fun h => hk h.symm
      simp [hk, hk2, FreqMap.incr]

theorem count_frequencies_apply (recent : List Int) (k : Int) :
    count_frequencies recent k =
      if recent.count k = 0 then none else some (recent.count k) := by
  unfold count_frequencies
  rw [foldl_incr_apply]
  simp [FreqMap.empty]

theorem length_penalty_loop (freq : FreqMap) (rp fp pp : ℚ) (i : Nat) (xs : List ℚ) :
    (penalty_loop freq rp fp pp i xs).length = xs.length := by
  induction xs generalizing i with
  | nil => rfl
  | cons x xs ih => simp [penalty_loop, ih]

theorem getElem?_penalty_loop (freq : FreqMap) (rp fp pp : ℚ) (i j : Nat) (xs : List ℚ) :
    (penalty_loop freq rp fp pp i xs)[j]? = xs[j]?.map (penalize_entry freq rp fp pp (i + j)) := by
  induction xs generalizing i j with
  | nil => simp [penalty_loop]
  | cons x xs ih =>
    cases j with
    | zero => simp [penalty_loop]
    | succ j =>
      have h : i + 1 + j = i + (j + 1) := by omega
      simp only [penalty_loop, List.getElem?_cons_succ, ih, h]

theorem length_apply_repeat_frequency_presence (logits : List ℚ) (recent : List Int)
    (rp fp pp : ℚ) :
    (apply_repeat_frequency_presence logits recent rp fp pp).length = logits.length := by
  unfold apply_repeat_frequency_presence
  split
  · rfl
  · exact length_penalty_loop _ _ _ _ _ _

/-- Every entry of the result, in terms of the number of occurrences of its index. -/
theorem getElem?_apply_repeat_frequency_presence (logits : List ℚ) (recent : List Int)
    (rp fp pp : ℚ) (i : Nat) :
    (apply_repeat_frequency_presence logits recent rp fp pp)[i]? =
      logits[i]?.map (fun x =>
        if recent.count (i : Int) = 0 then x
        else repeat_base rp x - fp * (recent.count (i : Int) : ℚ) - pp) := by
  unfold apply_repeat_frequency_presence
  split
  · rename_i h
    have : recent = [] := by simpa using h
    subst this
    cases logits[i]? <;> simp
  · rw [getElem?_penalty_loop]
    congr 1
    funext x
    simp only [penalize_entry, Nat.zero_add, count_frequencies_apply]
    by_cases hc : recent.count (i : Int) = 0
    · simp [hc]
    · simp only [hc, if_false, repeat_base]
      by_cases hr : rp = 1
      · simp [hr]
      · simp [hr]

/-! ## Proofs: the reference library meets the contract -/

theorem ref_insert_perm {α : Type} (cmp : α → α → Bool) (x : α) (l : List α) :
    (ref_insert cmp x l).Perm (x :: l) := by
  induction l with
  | nil => exact List.Perm.refl _
  | cons y ys ih =>
    simp only [ref_insert]
    split
    · exact (List.Perm.cons y ih).trans (List.Perm.swap x y ys)
    · exact List.Perm.refl _

theorem ref_sort_perm {α : Type} (cmp : α → α → Bool) (l : List α) :
    (ref_sort cmp l).Perm l := by
  induction l with
  | nil => exact List.Perm.refl _
  | cons x xs ih =>
    have h : ref_sort cmp (x :: xs) = ref_insert cmp x (ref_sort cmp xs) := rfl
    rw [h]
    exact (ref_insert_perm cmp x _).trans (List.Perm.cons x ih)

theorem ref_insert_sorted {α : Type} (key : α → ℚ) (x : α) (l : List α)
    (hl : l.Pairwise (fun a b => key b ≤ key a)) :
    (ref_insert (fun a b => decide (key a > key b)) x l).Pairwise (fun a b => key b ≤ key a) := by
  induction l with
  | nil => simp [ref_insert]
  | cons y ys ih =>
    rw [List.pairwise_cons] at hl
    simp only [ref_insert]
    split
    · rename_i hgt
      have hgt2 : key x < key y := by simpa using hgt
      rw [List.pairwise_cons]
      refine ⟨?_, ih hl.2⟩
      intro b hb
      rcases (List.Perm.mem_iff (ref_insert_perm _ x ys)).mp hb with h | h
      · exact le_of_lt hgt2
      · rename_i hmem
        exact hl.1 b hmem
    · rename_i hgt
      have hge : key y ≤ key x := by simpa using hgt
      rw [List.pairwise_cons]
      refine ⟨?_, List.pairwise_cons.mpr hl⟩
      intro b hb
      rcases List.mem_cons.mp hb with h | h
      · rw [h]; exact hge
      · exact le_trans (hl.1 b h) hge

theorem ref_sort_sorted {α : Type} (key : α → ℚ) (l : List α) :
    (ref_sort (fun a b => decide (key a > key b)) l).Pairwise (fun a b => key b ≤ key a) := by
  induction l with
  | nil => exact List.Pairwise.nil
  | cons x xs ih => exact ref_insert_sorted key x _ ih

/-- The reference library satisfies the contract of the standard. -/
theorem refStd_lawful : refStd.Lawful where
  nth_perm := fun key _ l => ref_sort_perm _ l
  nth_part := by
    intro key n l a b ha hb
    have hs := ref_sort_sorted key l
    have hsplit : ref_sort (fun a b => decide (key a > key b)) l =
        (ref_sort (fun a b => decide (key a > key b)) l).take n ++
        (ref_sort (fun a b => decide (key a > key b)) l).drop n := (List.take_append_drop n _).symm
    rw [hsplit, List.pairwise_append] at hs
    exact hs.2.2 a ha b hb
  sort_perm := fun key l => ref_sort_perm _ l
  sort_sorted := fun key l => ref_sort_sorted key l
  uniform01_range := fun rng => ⟨Int.fract_nonneg _, Int.fract_lt_one _⟩

/-! ## Proofs: arg-max -/

theorem max_element_loop_spec (v : List ℚ) (xs : List ℚ) (best i : Nat) (bestv : ℚ)
    (hdrop : v.drop i = xs) (hbv : v[best]? = some bestv)
    (hmax : ∀ j x, j < i → v[j]? = some x → x ≤ bestv)
    (hfirst : ∀ j x, j < best → v[j]? = some x → x < bestv) :
    ∃ mv, v[max_element_loop best bestv i xs]? = some mv ∧
      (∀ (j : Nat) (x : ℚ), v[j]? = some x → x ≤ mv) ∧
      (∀ j x, j < max_element_loop best bestv i xs → v[j]? = some x → x < mv) := by
  induction xs generalizing best i bestv with
  | nil =>
    have hlen : v.length ≤ i := List.drop_eq_nil_iff.mp hdrop
    refine ⟨bestv, hbv, ?_, ?_⟩
    · intro j x hj
      have hjl : j < v.length := (List.getElem?_eq_some_iff.mp hj).1
      exact hmax j x (by omega) hj
    · intro j x hj hx
      exact hfirst j x hj hx
  | cons y ys ih =>
    have hi : v[i]? = some y := by
      have := congrArg (fun l => l[0]?) hdrop
      simpa using this
    have hdrop2 : v.drop (i + 1) = ys := by
      have := congrArg (List.drop 1) hdrop
      simpa using this
    simp only [max_element_loop]
    split
    · rename_i hlt
      apply ih i (i + 1) y hdrop2 hi
      · intro j x hj hx
        rcases Nat.lt_succ_iff_lt_or_eq.mp hj with h | h
        · exact le_of_lt (lt_of_le_of_lt (hmax j x h hx) hlt)
        · subst h
          rw [hi] at hx
          exact le_of_eq (Option.some.inj hx).symm
      · intro j x hj hx
        exact lt_of_le_of_lt (hmax j x hj hx) hlt
    · rename_i hnlt
      apply ih best (i + 1) bestv hdrop2 hbv
      · intro j x hj hx
        rcases Nat.lt_succ_iff_lt_or_eq.mp hj with h | h
        · exact hmax j x h hx
        · subst h
          rw [hi] at hx
          have : y = x := Option.some.inj hx
          subst this
          exact not_lt.mp hnlt
      · exact hfirst

/-- On a non-empty vector `max_element` is the first position holding the largest value. -/
theorem max_element_spec (v : List ℚ) (hv : v ≠ []) :
    ∃ mv, v[max_element v]? = some mv ∧
      (∀ (j : Nat) (x : ℚ), v[j]? = some x → x ≤ mv) ∧
      (∀ j x, j < max_element v → v[j]? = some x → x < mv) := by
  cases v with
  | nil => exact absurd rfl hv
  | cons y ys =>
    simp only [max_element]
    apply max_element_loop_spec (y :: ys) ys 0 1 y
    · rfl
    · simp
    · intro j x hj hx
      have : j = 0 := by omega
      subst this
      simp at hx
      exact le_of_eq hx.symm
    · intro j x hj
      omega

theorem max_element_lt_length (v : List ℚ) (hv : v ≠ []) : max_element v < v.length := by
  obtain ⟨mv, h, _⟩ := max_element_spec v hv
  exact (List.getElem?_eq_some_iff.mp h).1

theorem penalty_step_logits_ne_nil (logits : List ℚ) (recent : List Int) (rp fp pp : ℚ)
    (h : logits ≠ []) : (penalty_step logits recent rp fp pp).logits ≠ [] := by
  intro hnil
  have hl := length_apply_repeat_frequency_presence logits recent rp fp pp
  have : (penalty_step logits recent rp fp pp).logits.length = 0 := by rw [hnil]; rfl
  have h0 : logits.length = 0 := by
    rw [← hl]
    exact this
  exact h (List.length_eq_zero.mp h0)

/-! ## Proofs: candidate selection -/

theorem length_iota (n : Nat) : (iota n).length = n := by
  simp [iota]

theorem mem_iota (n : Nat) (a : Int) : a ∈ iota n ↔ 0 ≤ a ∧ a < (n : Int) := by
  simp only [iota, List.mem_map, List.mem_range]
  constructor
  · rintro ⟨i, hi, rfl⟩
    simp only [Int.ofNat_eq_coe]
    omega
  · rintro ⟨h0, hn⟩
    refine ⟨a.toNat, by omega, ?_⟩
    simp only [Int.ofNat_eq_coe]
    omega

theorem nodup_iota (n : Nat) : (iota n).Nodup := by
  unfold iota
  apply List.Nodup.map
  · intro a b h
    exact Int.ofNat.inj h
  · exact List.nodup_range n

theorem length_softmax_weights {σ : Type} (L : StdLib σ) (logits : List ℚ) (temperature : ℚ) :
    (softmax_weights L logits temperature).length = logits.length := by
  simp [softmax_weights]

theorem length_resize {α : Type} (l : List α) (n : Nat) (d : α) : (resize l n d).length = n := by
  simp only [resize, List.length_append, List.length_take, List.length_replicate]
  omega

theorem resize_eq_take {α : Type} (l : List α) (n : Nat) (d : α) (h : n ≤ l.length) :
    resize l n d = l.take n := by
  simp [resize, Nat.sub_eq_zero_of_le h]

theorem top_k_indices_of_lt {σ : Type} (L : StdLib σ) (hL : L.Lawful) (probs : List ℚ)
    (top_k : Int) (hk : 0 < top_k) (hn : top_k < (probs.length : Int)) :
    top_k_indices L probs top_k =
      (L.nth_element (fun a b => decide (prob_at probs a > prob_at probs b)) top_k.toNat
        (iota probs.length)).take top_k.toNat := by
  have hcond : top_k > 0 ∧ ((iota probs.length).length : Int) > top_k := by
    rw [length_iota]
    exact ⟨hk, hn⟩
  simp only [top_k_indices, hcond, and_self, if_true]
  apply resize_eq_take
  rw [(hL.nth_perm (prob_at probs) top_k.toNat (iota probs.length)).length_eq, length_iota]
  omega

theorem top_k_indices_of_not {σ : Type} (L : StdLib σ) (probs : List ℚ)
    (top_k : Int) (h : ¬ (0 < top_k ∧ top_k < (probs.length : Int))) :
    top_k_indices L probs top_k = iota probs.length := by
  have hcond : ¬ (top_k > 0 ∧ ((iota probs.length).length : Int) > top_k) := by
    rw [length_iota]
    exact h
  simp only [top_k_indices, hcond, if_false]

/-- Every index kept by top-k is an index of the vector, and no index is kept twice. -/
theorem top_k_indices_sublist {σ : Type} (L : StdLib σ) (hL : L.Lawful) (probs : List ℚ)
    (top_k : Int) :
    (top_k_indices L probs top_k).Nodup ∧
      ∀ a ∈ top_k_indices L probs top_k, 0 ≤ a ∧ a < (probs.length : Int) := by
  by_cases h : 0 < top_k ∧ top_k < (probs.length : Int)
  · rw [top_k_indices_of_lt L hL probs top_k h.1 h.2]
    have hp := hL.nth_perm (prob_at probs) top_k.toNat (iota probs.length)
    constructor
    · exact ((hp.nodup_iff).mpr (nodup_iota _)).sublist (List.take_sublist _ _)
    · intro a ha
      exact (mem_iota _ a).mp (hp.mem_iff.mp (List.mem_of_mem_take ha))
  · rw [top_k_indices_of_not L probs top_k h]
    exact ⟨nodup_iota _, fun a ha => (mem_iota _ a).mp ha⟩

theorem map_fst_gather (probs : List ℚ) (indices : List Int) :
    (gather probs indices).map Prod.fst = indices := by
  simp [gather, Function.comp_def]

theorem mem_gather (probs : List ℚ) (indices : List Int) (kv : Int × ℚ)
    (h : kv ∈ gather probs indices) : kv.1 ∈ indices ∧ kv.2 = prob_at probs kv.1 := by
  simp only [gather, List.mem_map] at h
  obtain ⟨i, hi, rfl⟩ := h
  exact ⟨hi, rfl⟩

theorem sorted_candidates_perm {σ : Type} (L : StdLib σ) (hL : L.Lawful) (probs : List ℚ)
    (top_k : Int) :
    (sorted_candidates L probs top_k).Perm (gather probs (top_k_indices L probs top_k)) :=
  hL.sort_perm (fun kv => kv.2) _

theorem sorted_candidates_fst_perm {σ : Type} (L : StdLib σ) (hL : L.Lawful) (probs : List ℚ)
    (top_k : Int) :
    ((sorted_candidates L probs top_k).map Prod.fst).Perm (top_k_indices L probs top_k) := by
  have h := (sorted_candidates_perm L hL probs top_k).map Prod.fst
  rwa [map_fst_gather] at h

theorem nucleus_cutoff_bounds (top_p : ℚ) (cum : ℚ) (i : Nat) (l : List (Int × ℚ)) (c : Nat)
    (h : nucleus_cutoff top_p cum i l = some c) : i + 1 ≤ c ∧ c ≤ i + l.length := by
  induction l generalizing cum i with
  | nil => simp [nucleus_cutoff] at h
  | cons kv rest ih =>
    simp only [nucleus_cutoff] at h
    split at h
    · have : i + 1 = c := Option.some.inj h
      simp only [List.length_cons]
      omega
    · have := ih _ _ h
      simp only [List.length_cons]
      omega

/-- The top-p filter keeps a non-empty prefix of a non-empty candidate list. -/
theorem top_p_filter_eq_take (top_p : ℚ) (cand : List (Int × ℚ)) (hc : cand ≠ []) :
    ∃ m, 1 ≤ m ∧ m ≤ cand.length ∧ top_p_filter top_p cand = cand.take m := by
  have hlen : 1 ≤ cand.length := List.length_pos.mpr hc
  unfold top_p_filter
  split
  · cases hcut : nucleus_cutoff top_p 0 0 cand with
    | none =>
      refine ⟨max 1 cand.length, le_max_left _ _, by simp [hlen], ?_⟩
      simp only [Option.getD_none]
      exact resize_eq_take _ _ _ (by simp [hlen])
    | some c =>
      have hb := nucleus_cutoff_bounds _ _ _ _ _ hcut
      refine ⟨max 1 c, le_max_left _ _, by simp; omega, ?_⟩
      simp only [Option.getD_some]
      exact resize_eq_take _ _ _ (by simp; omega)
  · exact ⟨cand.length, hlen, le_refl _, (List.take_length _).symm⟩

theorem length_top_k_indices {σ : Type} (L : StdLib σ) (hL : L.Lawful) (probs : List ℚ)
    (top_k : Int) :
    (top_k_indices L probs top_k).length =
      if 0 < top_k ∧ top_k < (probs.length : Int) then top_k.toNat else probs.length := by
  split
  · rename_i h
    rw [top_k_indices_of_lt L hL probs top_k h.1 h.2, List.length_take,
      (hL.nth_perm (prob_at probs) top_k.toNat (iota probs.length)).length_eq, length_iota]
    omega
  · rename_i h
    rw [top_k_indices_of_not L probs top_k h, length_iota]

theorem length_sorted_candidates {σ : Type} (L : StdLib σ) (hL : L.Lawful) (probs : List ℚ)
    (top_k : Int) :
    (sorted_candidates L probs top_k).length =
      if 0 < top_k ∧ top_k < (probs.length : Int) then top_k.toNat else probs.length := by
  rw [(sorted_candidates_perm L hL probs top_k).length_eq, ← length_top_k_indices L hL]
  simp [gather]

theorem sorted_candidates_ne_nil {σ : Type} (L : StdLib σ) (hL : L.Lawful) (probs : List ℚ)
    (top_k : Int) (hp : probs ≠ []) : sorted_candidates L probs top_k ≠ [] := by
  have hlen := length_sorted_candidates L hL probs top_k
  have hpl : 0 < probs.length := List.length_pos.mpr hp
  intro hnil
  rw [hnil] at hlen
  simp only [List.length_nil] at hlen
  split at hlen
  · rename_i h
    omega
  · omega

theorem softmax_weights_ne_nil {σ : Type} (L : StdLib σ) (logits : List ℚ) (temperature : ℚ)
    (h : logits ≠ []) : softmax_weights L logits temperature ≠ [] := by
  intro hnil
  have := length_softmax_weights L logits temperature
  rw [hnil] at this
  exact h (List.length_eq_zero.mp this.symm)

/-- The nucleus filter returns a non-empty prefix of the sorted candidates. -/
theorem nucleus_candidates_initial {σ : Type} (L : StdLib σ) (hL : L.Lawful) (logits : List ℚ)
    (temperature : ℚ) (top_k : Int) (top_p : ℚ) (hne : logits ≠ []) :
    nucleus_candidates L logits temperature top_k top_p ≠ [] ∧
      nucleus_candidates L logits temperature top_k top_p <+:
        sorted_candidates L (softmax_weights L logits temperature) top_k := by
  have hc := sorted_candidates_ne_nil L hL _ top_k (softmax_weights_ne_nil L logits temperature hne)
  obtain ⟨m, hm1, hm2, heq⟩ := top_p_filter_eq_take top_p _ hc
  unfold nucleus_candidates
  rw [heq]
  constructor
  · intro hnil
    have := congrArg List.length hnil
    rw [List.length_take] at this
    simp only [List.length_nil] at this
    omega
  · exact List.take_prefix _ _

/-! ## Proofs: normalisation and the cumulative draw -/

theorem foldl_add_snd (l : List (Int × ℚ)) (a : ℚ) :
    l.foldl (fun sum kv => sum + kv.2) a = a + (l.map Prod.snd).sum := by
  induction l generalizing a with
  | nil => simp
  | cons kv rest ih =>
    simp only [List.foldl_cons, List.map_cons, List.sum_cons, ih]
    ring

theorem cand_sum_eq (cand : List (Int × ℚ)) : cand_sum cand = (cand.map Prod.snd).sum := by
  simp [cand_sum, foldl_add_snd]

theorem sum_normalize (cand : List (Int × ℚ)) (s : ℚ) :
    ((normalize cand s).map Prod.snd).sum = (cand.map Prod.snd).sum / s := by
  induction cand with
  | nil => simp [normalize]
  | cons kv rest ih =>
    simp only [normalize, List.map_cons, List.sum_cons, List.map_map] at ih ⊢
    rw [ih]
    ring

theorem ref_exp_nonneg (x : ℚ) : 0 ≤ ref_exp x := by
  unfold ref_exp
  split
  · linarith
  · rename_i h
    have : 0 < 1 - x := by linarith [not_le.mp h]
    exact le_of_lt (div_pos one_pos this)

theorem prob_at_nonneg (probs : List ℚ) (hp : ∀ x ∈ probs, 0 ≤ x) (a : Int) :
    0 ≤ prob_at probs a := by
  unfold prob_at
  rw [List.getD_eq_getElem?_getD]
  cases h : probs[a.toNat]? with
  | none => simp
  | some x =>
    simp only [Option.getD_some]
    exact hp x (List.getElem?_mem h)

theorem softmax_weights_nonneg {σ : Type} (L : StdLib σ) (hexp : ∀ x, 0 ≤ L.exp x)
    (logits : List ℚ) (temperature : ℚ) : ∀ x ∈ softmax_weights L logits temperature, 0 ≤ x := by
  intro x hx
  simp only [softmax_weights, List.mem_map] at hx
  obtain ⟨y, _, rfl⟩ := hx
  exact hexp _

/-- The walk of `sample_next_token`, started with accumulator `acc`. -/
theorem sample_walk_spec (r : ℚ) (l : List (Int × ℚ)) (acc : ℚ) :
    (∀ i : Nat, i < l.length → r ≤ acc + ((l.take (i + 1)).map Prod.snd).sum →
      (∀ j : Nat, j < i → acc + ((l.take (j + 1)).map Prod.snd).sum < r) →
      sample_walk r acc l = l[i]?.map Prod.fst) ∧
    ((∀ i : Nat, i < l.length → acc + ((l.take (i + 1)).map Prod.snd).sum < r) →
      sample_walk r acc l = none) := by
  induction l generalizing acc with
  | nil =>
    constructor
    · intro i hi
      simp at hi
    · intro _
      rfl
  | cons kv rest ih =>
    have hstep : ∀ i : Nat, acc + (((kv :: rest).take (i + 1 + 1)).map Prod.snd).sum =
        (acc + kv.2) + ((rest.take (i + 1)).map Prod.snd).sum := by
      intro i
      simp only [List.take_succ_cons, List.map_cons, List.sum_cons]
      ring
    have hzero : acc + (((kv :: rest).take (0 + 1)).map Prod.snd).sum = acc + kv.2 := by
      simp
    constructor
    · intro i hi hr hbefore
      cases i with
      | zero =>
        rw [hzero] at hr
        simp [sample_walk, hr]
      | succ i =>
        have h0 := hbefore 0 (Nat.succ_pos _)
        rw [hzero] at h0
        have hnot : ¬ r ≤ acc + kv.2 := not_le.mpr h0
        simp only [sample_walk, hnot, if_false, List.getElem?_cons_succ]
        apply (ih (acc + kv.2)).1 i (by simpa using hi)
        · rw [← hstep]
          exact hr
        · intro j hj
          rw [← hstep]
          exact hbefore (j + 1) (by omega)
    · intro hall
      have h0 := hall 0 (by simp)
      rw [hzero] at h0
      have hnot : ¬ r ≤ acc + kv.2 := not_le.mpr h0
      simp only [sample_walk, hnot, if_false]
      apply (ih (acc + kv.2)).2
      intro i hi
      rw [← hstep]
      exact hall (i + 1) (by simpa using hi)

theorem sample_walk_mem (r : ℚ) (l : List (Int × ℚ)) (acc : ℚ) (t : Int)
    (h : sample_walk r acc l = some t) : ∃ kv ∈ l, kv.1 = t := by
  induction l generalizing acc with
  | nil => simp [sample_walk] at h
  | cons kv rest ih =>
    simp only [sample_walk] at h
    split at h
    · exact ⟨kv, List.mem_cons_self _ _, Option.some.inj h⟩
    · obtain ⟨kv2, hm, ht⟩ := ih _ h
      exact ⟨kv2, List.mem_cons_of_mem _ hm, ht⟩

/-- On a non-empty list the draw returns the token of one of the candidates. -/
theorem draw_mem (cand : List (Int × ℚ)) (r : ℚ) (hc : cand ≠ []) :
    ∃ kv ∈ cand, draw cand r = some kv.1 := by
  unfold draw
  cases h : sample_walk r 0 cand with
  | some t =>
    obtain ⟨kv, hm, ht⟩ := sample_walk_mem r cand 0 t h
    exact ⟨kv, hm, by rw [ht]⟩
  | none =>
    refine ⟨cand.getLast hc, List.getLast_mem hc, ?_⟩
    simp [List.getLast?_eq_getLast _ hc]

/-! ## Proofs: context window -/

theorem window_push_drop (C : Nat) (l : List Int) (t : Int) :
    window_push C (l.drop (l.length - C)) t = (l ++ [t]).drop (l.length + 1 - C) := by
  unfold window_push
  by_cases h : C ≤ l.length
  · have hlen : ((l.drop (l.length - C)) ++ [t]).length > C := by
      simp only [List.length_append, List.length_drop, List.length_singleton]
      omega
    rw [if_pos hlen, List.drop_append_eq_append_drop, List.drop_append_eq_append_drop,
      List.drop_drop, List.length_drop]
    by_cases hC : C = 0
    · subst hC
      simp
    · have h1 : l.length - C + 1 = l.length + 1 - C := by omega
      have h2 : 1 - (l.length - (l.length - C)) = l.length + 1 - C - l.length := by omega
      rw [h1, h2]
  · have hlen : ¬ ((l.drop (l.length - C)) ++ [t]).length > C := by
      simp only [List.length_append, List.length_drop, List.length_singleton]
      omega
    have h0 : l.length - C = 0 := by omega
    have h1 : l.length + 1 - C = 0 := by omega
    rw [if_neg hlen, h0, h1]
    rfl

/-- Pushing `ts` into a window within capacity keeps the last `C` elements of `w ++ ts`. -/
theorem window_push_all_eq (C : Nat) (w ts : List Int) (hw : w.length ≤ C) :
    window_push_all C w ts = (w ++ ts).drop ((w ++ ts).length - C) := by
  induction ts using List.reverseRecOn with
  | nil =>
    have : (w ++ []).length - C = 0 := by simp; omega
    rw [this]
    simp [window_push_all]
  | append_singleton ts t ih =>
    have hstep : window_push_all C w (ts ++ [t]) = window_push C (window_push_all C w ts) t := by
      simp [window_push_all, List.foldl_append]
    rw [hstep, ih, window_push_drop, ← List.append_assoc]
    congr 1
    simp only [List.length_append, List.length_singleton]

/-! ## Proofs: the weights -/

theorem ref_exp_le_one (x : ℚ) (h : x ≤ 0) : ref_exp x ≤ 1 := by
  unfold ref_exp
  split
  · linarith
  · rename_i hx
    have hpos : 0 < 1 - x := by linarith
    rw [div_le_one hpos]
    linarith

/-- The reference exponential is within the bounds. -/
theorem refStd_expBounds : refStd.ExpBounds where
  exp_zero := by decide!
  exp_nonneg := ref_exp_nonneg
  exp_le_one := ref_exp_le_one

theorem rounded_exp_nonneg (x : ℚ) : 0 ≤ rounded_exp x := by
  unfold rounded_exp
  split
  · linarith
  · rename_i h
    split
    · norm_num
    · have : 0 < 1 - x := by linarith [not_le.mp h]
      exact le_of_lt (div_pos one_pos this)

theorem rounded_exp_le_one (x : ℚ) (h : x ≤ 0) : rounded_exp x ≤ 1 := by
  unfold rounded_exp
  split
  · linarith
  · split
    · exact le_refl _
    · have hpos : 0 < 1 - x := by linarith
      rw [div_le_one hpos]
      linarith

/-- The rounding library meets the contract of the standard. -/
theorem roundingStd_lawful : roundingStd.Lawful where
  nth_perm := refStd_lawful.nth_perm
  nth_part := refStd_lawful.nth_part
  sort_perm := refStd_lawful.sort_perm
  sort_sorted := refStd_lawful.sort_sorted
  uniform01_range := refStd_lawful.uniform01_range

/-- The rounding exponential is within the bounds. -/
theorem roundingStd_expBounds : roundingStd.ExpBounds where
  exp_zero := by decide!
  exp_nonneg := rounded_exp_nonneg
  exp_le_one := rounded_exp_le_one

theorem getD_max_element (adj : List ℚ) (mv : ℚ) (h : adj[max_element adj]? = some mv) :
    adj.getD (max_element adj) 0 = mv := by
  rw [List.getD_eq_getElem?_getD, h]
  rfl

theorem prob_at_softmax {σ : Type} (L : StdLib σ) (adj : List ℚ) (temperature : ℚ) (i : Nat)
    (x : ℚ) (hx : adj[i]? = some x) :
    prob_at (softmax_weights L adj temperature) (i : Int) =
      L.exp ((x - adj.getD (max_element adj) 0) / temperature) := by
  unfold prob_at softmax_weights
  rw [List.getD_eq_getElem?_getD]
  simp [List.getElem?_map, hx]

/-- The weight of the arg-max token is `exp 0 = 1`. -/
theorem prob_at_max_element {σ : Type} (L : StdLib σ) (hB : L.ExpBounds) (adj : List ℚ)
    (temperature : ℚ) (hne : adj ≠ []) :
    prob_at (softmax_weights L adj temperature) (max_element adj : Int) = 1 := by
  obtain ⟨mv, hmv, _⟩ := max_element_spec adj hne
  rw [prob_at_softmax L adj temperature _ mv hmv, getD_max_element adj mv hmv]
  simp [hB.exp_zero]

/-- No weight exceeds `1`. -/
theorem prob_at_le_one {σ : Type} (L : StdLib σ) (hB : L.ExpBounds) (adj : List ℚ)
    (temperature : ℚ) (ht : 0 < temperature) (hne : adj ≠ []) (i : Nat) (x : ℚ)
    (hx : adj[i]? = some x) :
    prob_at (softmax_weights L adj temperature) (i : Int) ≤ 1 := by
  obtain ⟨mv, hmv, hmax, _⟩ := max_element_spec adj hne
  rw [prob_at_softmax L adj temperature i x hx, getD_max_element adj mv hmv]
  have hle : x ≤ mv := hmax i x hx
  apply hB.exp_le_one
  exact div_nonpos_of_nonpos_of_nonneg (by linarith) (le_of_lt ht)

/-- An index discarded by top-k has no weight above that of a kept index. -/
theorem top_k_discarded_le {σ : Type} (L : StdLib σ) (hL : L.Lawful) (probs : List ℚ)
    (top_k : Int) (d : Int) (hd0 : 0 ≤ d) (hdn : d < (probs.length : Int))
    (hnot : d ∉ top_k_indices L probs top_k) :
    ∀ a ∈ top_k_indices L probs top_k, prob_at probs d ≤ prob_at probs a := by
  have hdi : d ∈ iota probs.length := (mem_iota _ d).mpr ⟨hd0, hdn⟩
  by_cases hk : 0 < top_k ∧ top_k < (probs.length : Int)
  · have hidx := top_k_indices_of_lt L hL probs top_k hk.1 hk.2
    rw [hidx] at hnot ⊢
    have hdn2 := (hL.nth_perm (prob_at probs) top_k.toNat (iota probs.length)).mem_iff.mpr hdi
    rw [← List.take_append_drop top_k.toNat (L.nth_element _ top_k.toNat _),
      List.mem_append] at hdn2
    intro a ha
    rcases hdn2 with h | h
    · exact absurd h hnot
    · exact hL.nth_part (prob_at probs) top_k.toNat _ _ _ ha h
  · rw [top_k_indices_of_not L probs top_k hk] at hnot
    exact absurd hdi hnot

/-- The first sorted candidate is an index of the vector and has weight `1`; the other
candidates have non-negative weights. -/
theorem sorted_candidates_head {σ : Type} (L : StdLib σ) (hL : L.Lawful) (hB : L.ExpBounds)
    (adj : List ℚ) (temperature : ℚ) (top_k : Int) (ht : 0 < temperature) (hne : adj ≠ []) :
    ∃ (rest : List (Int × ℚ)) (i : Nat),
      sorted_candidates L (softmax_weights L adj temperature) top_k = ((i : Int), 1) :: rest ∧
      i < adj.length ∧
      (∀ kv2 ∈ rest, 0 ≤ kv2.2) := by
  have hpl := length_softmax_weights L adj temperature
  have hperm := sorted_candidates_perm L hL (softmax_weights L adj temperature) top_k
  have hsub := top_k_indices_sublist L hL (softmax_weights L adj temperature) top_k
  have hsorted : (sorted_candidates L (softmax_weights L adj temperature) top_k).Pairwise
      (fun a b => b.2 ≤ a.2) := hL.sort_sorted (fun kv => kv.2) _
  have hcne := sorted_candidates_ne_nil L hL _ top_k (softmax_weights_ne_nil L adj temperature hne)
  cases hc : sorted_candidates L (softmax_weights L adj temperature) top_k with
  | nil => exact absurd hc hcne
  | cons kv rest =>
    rw [hc] at hperm hsorted
    rw [List.pairwise_cons] at hsorted
    have hkv := mem_gather _ _ kv (hperm.mem_iff.mp (List.mem_cons_self _ _))
    have hrange := hsub.2 kv.1 hkv.1
    rw [hpl] at hrange
    have hi : kv.1.toNat < adj.length := by omega
    have hcast : ((kv.1.toNat : Nat) : Int) = kv.1 := by omega
    have hx : adj[kv.1.toNat]? = some adj[kv.1.toNat] := List.getElem?_eq_getElem hi
    have hle := prob_at_le_one L hB adj temperature ht hne kv.1.toNat _ hx
    rw [hcast, ← hkv.2] at hle
    have hge : 1 ≤ kv.2 := by
      have hm1 := prob_at_max_element L hB adj temperature hne
      by_cases hmem : (max_element adj : Int) ∈
          top_k_indices L (softmax_weights L adj temperature) top_k
      · have hin : ((max_element adj : Int),
            prob_at (softmax_weights L adj temperature) (max_element adj : Int)) ∈
            kv :: rest := by
          apply hperm.mem_iff.mpr
          simp only [gather, List.mem_map]
          exact ⟨_, hmem, rfl⟩
        rcases List.mem_cons.mp hin with h | h
        · rw [← h]
          exact le_of_eq hm1.symm
        · have := hsorted.1 _ h
          rw [hm1] at this
          exact this
      · have hml := max_element_lt_length adj hne
        have := top_k_discarded_le L hL (softmax_weights L adj temperature) top_k
          (max_element adj : Int) (by omega) (by rw [hpl]; omega) hmem kv.1 hkv.1
        rw [hm1, ← hkv.2] at this
        exact this
    have h1 : kv.2 = 1 := le_antisymm hle hge
    refine ⟨rest, kv.1.toNat, ?_, hi, ?_⟩
    · rw [hcast, ← h1]
    · intro kv2 hkv2
      have hg := mem_gather _ _ kv2 (hperm.mem_iff.mp (List.mem_cons_of_mem _ hkv2))
      rw [hg.2]
      exact prob_at_nonneg _ (softmax_weights_nonneg L hB.exp_nonneg adj temperature) _

theorem top_p_filter_head (top_p : ℚ) (kv : Int × ℚ) (rest : List (Int × ℚ))
    (hp : top_p < 1) (hkv : kv.2 = 1) : top_p_filter top_p (kv :: rest) = [kv] := by
  have hge : top_p ≤ kv.2 := by rw [hkv]; linarith
  have hcut : nucleus_cutoff top_p 0 0 (kv :: rest) = some 1 := by
    simp [nucleus_cutoff, hge]
  unfold top_p_filter
  rw [if_pos hp, hcut]
  simp [resize]

theorem draw_single (t : Int) (r : ℚ) : draw [(t, 1)] r = some t := by
  unfold draw
  by_cases h : r ≤ 1
  · simp [sample_walk, h]
  · simp [sample_walk, h]

/-- Every candidate after the nucleus filter is an index of the vector with its own weight. -/
theorem nucleus_candidates_range {σ : Type} (L : StdLib σ) (hL : L.Lawful) (adj : List ℚ)
    (temperature : ℚ) (top_k : Int) (top_p : ℚ) (hne : adj ≠ []) :
    ∀ kv ∈ nucleus_candidates L adj temperature top_k top_p,
      0 ≤ kv.1 ∧ kv.1 < (adj.length : Int) ∧
      kv.2 = prob_at (softmax_weights L adj temperature) kv.1 := by
  intro kv hkv
  have hpre := (nucleus_candidates_initial L hL adj temperature top_k top_p hne).2
  have hmem := hpre.subset hkv
  have hg := mem_gather _ _ kv
    ((sorted_candidates_perm L hL (softmax_weights L adj temperature) top_k).mem_iff.mp hmem)
  have hr := (top_k_indices_sublist L hL (softmax_weights L adj temperature) top_k).2 kv.1 hg.1
  rw [length_softmax_weights] at hr
  exact ⟨hr.1, hr.2, hg.2⟩

/-- The function `sample_next_token` with the random source replaced, unfolded on the
sampling path. -/
theorem sample_next_token_sampling {σ : Type} (L : StdLib σ) (u : σ → ℚ × σ) (rng : σ)
    (logits_in : List ℚ) (recent : List Int) (temperature : ℚ) (top_k : Int)
    (top_p rp fp pp : ℚ) (hne : logits_in ≠ []) (ht : 0 < temperature)
    (hsum : 0 < cand_sum (nucleus_candidates L (penalty_step logits_in recent rp fp pp).logits
      temperature top_k top_p)) :
    sample_next_token { L with uniform01 := u } rng logits_in recent temperature top_k top_p
        rp fp pp =
      (draw (final_candidates L (penalty_step logits_in recent rp fp pp).logits temperature
        top_k top_p) (u rng).1).map (fun t => (t, (u rng).2)) := by
  have hadj := penalty_step_logits_ne_nil logits_in recent rp fp pp hne
  have h1 : ¬ temperature ≤ 0 := not_le.mpr ht
  have hsame : nucleus_candidates { L with uniform01 := u }
      (penalty_step logits_in recent rp fp pp).logits temperature top_k top_p =
      nucleus_candidates L (penalty_step logits_in recent rp fp pp).logits temperature
        top_k top_p := rfl
  have h2 : ¬ cand_sum (nucleus_candidates L (penalty_step logits_in recent rp fp pp).logits
      temperature top_k top_p) ≤ 0 := not_le.mpr hsum
  simp only [sample_next_token, h1, hadj, hsame, h2, if_false, final_candidates]

/-! ## Proofs: prompt builder -/

theorem build_loop_eq_foldl (system : String) (f : Bool) (oss : String)
    (l : List ChatMessage) :
    build_loop system f oss l = (l.foldl (build_step system) (f, oss)).2 := by
  induction l generalizing f oss with
  | nil => rfl
  | cons a l ih =>
    rw [List.foldl_cons, build_loop]
    unfold build_step
    by_cases hu : a.role = "user"
    · cases f with
      | true => simp only [hu, if_true]; exact ih _ _
      | false => simp only [hu, if_true, Bool.false_eq_true, if_false]; exact ih _ _
    · by_cases ha : a.role = "assistant"
      · simp only [hu, ha, if_true, if_false]; exact ih _ _
      · simp only [hu, ha, if_false]; exact ih _ _

theorem foldl_build_step_fst (system : String) (f : Bool) (oss : String)
    (l : List ChatMessage) :
    (l.foldl (build_step system) (f, oss)).1 =
      (f && l.all (fun a => decide (a.role ≠ "user"))) := by
  induction l generalizing f oss with
  | nil => simp
  | cons a l ih =>
    rw [List.foldl_cons]
    by_cases hu : a.role = "user"
    · cases f with
      | true =>
        have : build_step system (true, oss) a = (false, (build_step system (true, oss) a).2) := by
          simp [build_step, hu]
        rw [this, ih]
        simp [hu]
      | false =>
        have : build_step system (false, oss) a =
            (false, (build_step system (false, oss) a).2) := by
          simp [build_step, hu]
        rw [this, ih]
        simp
    · have : build_step system (f, oss) a = (f, (build_step system (f, oss) a).2) := by
        by_cases ha : a.role = "assistant"
        · simp [build_step, hu, ha]
        · simp [build_step, hu, ha]
      rw [this, ih]
      simp [hu]

theorem collect_system_append (h : List ChatMessage) (m : ChatMessage)
    (hm : m.role ≠ "system") : collect_system (h ++ [m]) = collect_system h := by
  simp [collect_system, List.foldl_append, hm]

theorem build_prompt_append (h : List ChatMessage) (m : ChatMessage) (hm : m.role ≠ "system") :
    build_prompt (h ++ [m]) =
      (build_step (collect_system h)
        (h.all (fun a => decide (a.role ≠ "user")), build_prompt h) m).2 := by
  unfold build_prompt
  rw [collect_system_append h m hm, build_loop_eq_foldl, build_loop_eq_foldl, List.foldl_append,
    List.foldl_cons, List.foldl_nil]
  congr 2
  apply Prod.ext
  · rw [foldl_build_step_fst]
    simp
  · rfl

theorem build_prompt_append_assistant (h : List ChatMessage) (c : String) :
    build_prompt (h ++ [⟨"assistant", c⟩]) = build_prompt h ++ c ++ "\n" := by
  have hs : ¬ ("assistant" = "system") := by decide
  rw [build_prompt_append h _ hs]
  have h1 : ¬ ("assistant" = "user") := by decide
  simp [build_step, h1]

theorem build_prompt_append_user (h : List ChatMessage) (c : String)
    (hu : ∃ m ∈ h, m.role = "user") :
    build_prompt (h ++ [⟨"user", c⟩]) = build_prompt h ++ "[INST] " ++ c ++ " [/INST]\n" := by
  have hs : ¬ ("user" = "system") := by decide
  rw [build_prompt_append h _ hs]
  have hall : h.all (fun a => decide (a.role ≠ "user")) = false := by
    rw [List.all_eq_false]
    obtain ⟨m, hm, hr⟩ := hu
    exact ⟨m, hm, by simp [hr]⟩
  rw [hall]
  simp [build_step]

/-! ## Proofs: the llama backend -/

theorem fill_batch_pos (pos_ : Int) (n i : Nat) (tokens : List Int) :
    (LlamaBackend.fill_batch pos_ n i tokens).map (fun e => e.pos) =
      (List.range' i tokens.length).map (fun (j : Nat) => pos_ + (j : Int)) := by
  induction tokens generalizing i with
  | nil => rfl
  | cons t ts ih =>
    simp only [LlamaBackend.fill_batch, List.map_cons, List.length_cons, List.range'_succ, ih]

theorem fill_batch_token (pos_ : Int) (n i : Nat) (tokens : List Int) :
    (LlamaBackend.fill_batch pos_ n i tokens).map (fun e => e.token) = tokens := by
  induction tokens generalizing i with
  | nil => rfl
  | cons t ts ih =>
    simp only [LlamaBackend.fill_batch, List.map_cons, ih]

theorem eval_pos {κ : Type} (A : LlamaApi κ) (b : LlamaBackend κ) (tokens : List Int) :
    (LlamaBackend.eval A b tokens).2.pos_ = b.pos_ + (tokens.length : Int) := by
  unfold LlamaBackend.eval
  cases tokens with
  | nil => simp
  | cons t ts => simp

theorem range'_map_add (p : Int) (a n m : Nat) :
    (List.range' a n).map (fun (j : Nat) => p + (j : Int)) ++
      (List.range' (a + n) m).map (fun (j : Nat) => p + (j : Int)) =
      (List.range' a (n + m)).map (fun (j : Nat) => p + (j : Int)) := by
  rw [← List.map_append, List.range'_append_1, Nat.add_comm m n]

/-- Over a session the submitted tokens get consecutive positions from the counter on. -/
theorem run_positions {κ : Type} (A : LlamaApi κ) (b : LlamaBackend κ)
    (calls : List BackendCall) :
    (LlamaBackend.run A b calls).2.map (fun e => e.pos) =
      (List.range (BackendCall.tokens calls).length).map (fun (j : Nat) => b.pos_ + (j : Int)) ∧
    (LlamaBackend.run A b calls).2.map (fun e => e.token) = BackendCall.tokens calls ∧
    (LlamaBackend.run A b calls).1.pos_ = b.pos_ + ((BackendCall.tokens calls).length : Int) := by
  induction calls generalizing b with
  | nil => simp [LlamaBackend.run, BackendCall.tokens]
  | cons c rest ih =>
    cases c with
    | reset =>
      have := ih (LlamaBackend.reset A b)
      simpa [LlamaBackend.run, BackendCall.tokens, LlamaBackend.reset] using this
    | eval tokens =>
      obtain ⟨h1, h2, h3⟩ := ih (LlamaBackend.eval A b tokens).2
      rw [eval_pos] at h1 h3
      simp only [LlamaBackend.run, BackendCall.tokens, List.map_append, h1, h2, h3,
        List.length_append]
      refine ⟨?_, ?_, ?_⟩
      · cases tokens with
        | nil => simp
        | cons t ts =>
          simp only [List.isEmpty_cons, Bool.false_eq_true, if_false, fill_batch_pos]
          rw [List.range_eq_range', List.range_eq_range']
          have hshift : (List.range' 0 (BackendCall.tokens rest).length).map
              (fun (j : Nat) => b.pos_ + ((t :: ts).length : Int) + (j : Int)) =
              (List.range' (0 + (t :: ts).length) (BackendCall.tokens rest).length).map
                (fun (j : Nat) => b.pos_ + (j : Int)) := by
            rw [Nat.zero_add]
            apply List.ext_getElem
            · simp
            · intro i h1 h2
              simp [List.getElem_range']
              omega
          rw [hshift, range'_map_add]
      · cases tokens with
        | nil => simp
        | cons t ts =>
          simp only [List.isEmpty_cons, Bool.false_eq_true, if_false, fill_batch_token]
      · push_cast
        omega

/-! ## Proofs: generation loop -/

/-- On non-empty logits `sample_next_token` returns a token. -/
theorem sample_next_token_some {σ : Type} (L : StdLib σ) (rng : σ) (logits_in : List ℚ)
    (recent : List Int) (temperature : ℚ) (top_k : Int) (top_p rp fp pp : ℚ)
    (hne : logits_in ≠ []) :
    ∃ t rng2, sample_next_token L rng logits_in recent temperature top_k top_p rp fp pp =
      some (t, rng2) := by
  have hadj := penalty_step_logits_ne_nil logits_in recent rp fp pp hne
  unfold sample_next_token
  simp only [hadj, if_false]
  split
  · exact ⟨_, _, rfl⟩
  · split
    · exact ⟨_, _, rfl⟩
    · rename_i hsum
      have hc : normalize (nucleus_candidates L (penalty_step logits_in recent rp fp pp).logits
          temperature top_k top_p) (cand_sum (nucleus_candidates L
            (penalty_step logits_in recent rp fp pp).logits temperature top_k top_p)) ≠ [] := by
        intro hnil
        have h0 : nucleus_candidates L (penalty_step logits_in recent rp fp pp).logits
            temperature top_k top_p = [] := by
          simpa [normalize] using hnil
        rw [h0] at hsum
        exact hsum (le_of_eq rfl)
      obtain ⟨kv, _, hd⟩ := draw_mem _ (L.uniform01 rng).1 hc
      exact ⟨kv.1, (L.uniform01 rng).2, by rw [hd]; rfl⟩

theorem join_pieces_append (ps qs : List String) :
    join_pieces (ps ++ qs) = join_pieces ps ++ join_pieces qs := by
  induction ps with
  | nil => simp [join_pieces]
  | cons p ps ih => simp [join_pieces, ih, String.append_assoc]

/-- What the decode loop does, for every backend that returns non-empty logits: it completes
some steps and ends in one of the three ways. -/
theorem decode_loop_run {β σ : Type} (L : StdLib σ) (B : ModelBackend β) (args : CliArgs)
    (eos : Int) (hlog : ∀ b, (B.logits b).1 ≠ []) (fuel : Nat) (s : Session β σ) :
    ∃ (s2 : Session β σ) (steps : List (Int × String)) (e : DecodeEnd),
      decode_loop L B args eos fuel s = some s2 ∧
      s2.trace = s.trace ++ decode_events eos steps e ∧
      s2.out_tokens = s.out_tokens ++ (steps.map Prod.fst ++ e.tokens) ∧
      s2.partial_text = s.partial_text ++ (join_pieces (steps.map Prod.snd) ++ e.text) ∧
      s2.recent = window_push_all recent_max s.recent (steps.map Prod.fst) ∧
      s2.history = s.history ∧
      steps.length + e.samples ≤ fuel ∧
      (e = DecodeEnd.budget → steps.length = fuel) ∧
      (∀ tp ∈ steps, tp.1 ≠ eos) ∧
      (∀ t p, e = DecodeEnd.failed t p → t ≠ eos) := by
  induction fuel generalizing s with
  | zero =>
    refine ⟨s, [], DecodeEnd.budget, rfl, ?_, ?_, ?_, rfl, rfl, ?_, ?_, ?_, ?_⟩
    · simp [decode_events, DecodeEnd.events]
    · simp [DecodeEnd.tokens]
    · simp [join_pieces, DecodeEnd.text]
    · simp [DecodeEnd.samples]
    · intro _; rfl
    · intro tp h; simp at h
    · intro t p h; cases h
  | succ fuel ih =>
    obtain ⟨next, rng2, hs⟩ := sample_next_token_some L s.rng (B.logits s.backend).1 s.recent
      args.temperature args.top_k args.top_p args.repeat_penalty args.frequency_penalty
      args.presence_penalty (hlog s.backend)
    by_cases heos : next = eos
    · refine ⟨{ s with backend := (B.logits s.backend).2, rng := rng2,
                         trace := s.trace ++ [Event.logits, Event.sample next] },
        [], DecodeEnd.eos, ?_, ?_, ?_, ?_, ?_, ?_, ?_, ?_, ?_, ?_⟩
      · simp only [decode_loop, hs, heos, if_true]
      · simp [decode_events, DecodeEnd.events, heos]
      · simp [DecodeEnd.tokens]
      · simp [join_pieces, DecodeEnd.text]
      · rfl
      · rfl
      · simp [DecodeEnd.samples]
      · intro h; cases h
      · intro tp h; simp at h
      · intro t p h; cases h
    · by_cases hev : (B.eval (B.detokenize (B.logits s.backend).2 [next]).2 [next]).1 = true
      · obtain ⟨s2, steps, e, h1, h2, h3, h4, h5, h6, h7, h8, h9, h10⟩ := ih
          { s with backend := (B.eval (B.detokenize (B.logits s.backend).2 [next]).2 [next]).2,
                   rng := rng2,
                   out_tokens := s.out_tokens ++ [next],
                   partial_text := s.partial_text ++
                     (B.detokenize (B.logits s.backend).2 [next]).1,
                   recent := window_push recent_max s.recent next,
                   trace := s.trace ++ [Event.logits, Event.sample next,
                     Event.detokenize [next],
                     Event.cout (B.detokenize (B.logits s.backend).2 [next]).1,
                     Event.eval [next] true] }
        refine ⟨s2, (next, (B.detokenize (B.logits s.backend).2 [next]).1) :: steps, e,
          ?_, ?_, ?_, ?_, ?_, ?_, ?_, ?_, ?_, h10⟩
        · simp only [decode_loop, hs, heos, if_false, hev, Bool.not_true]
          exact h1
        · rw [h2]
          simp [decode_events, step_events, List.append_assoc]
        · rw [h3]
          simp [List.append_assoc]
        · rw [h4]
          simp [join_pieces, String.append_assoc]
        · rw [h5]
          simp [window_push_all]
        · exact h6
        · simp only [List.length_cons]
          omega
        · intro hb
          simp only [List.length_cons]
          rw [h8 hb]
        · intro tp htp
          rcases List.mem_cons.mp htp with h | h
          · rw [h]; exact heos
          · exact h9 tp h
      · have hev2 : (B.eval (B.detokenize (B.logits s.backend).2 [next]).2 [next]).1 = false := by
          simpa using hev
        refine ⟨{ s with
            backend := (B.eval (B.detokenize (B.logits s.backend).2 [next]).2 [next]).2,
            rng := rng2,
            out_tokens := s.out_tokens ++ [next],
            partial_text := s.partial_text ++ (B.detokenize (B.logits s.backend).2 [next]).1,
            trace := s.trace ++ [Event.logits, Event.sample next, Event.detokenize [next],
              Event.cout (B.detokenize (B.logits s.backend).2 [next]).1,
              Event.eval [next] false, Event.cerr "\nEval error during generation.\n"] },
          [], DecodeEnd.failed next (B.detokenize (B.logits s.backend).2 [next]).1,
          ?_, ?_, ?_, ?_, ?_, ?_, ?_, ?_, ?_, ?_⟩
        · simp only [decode_loop, hs, heos, if_false, hev2, Bool.not_false, if_true]
        · simp [decode_events, DecodeEnd.events]
        · simp [DecodeEnd.tokens]
        · simp [join_pieces, DecodeEnd.text]
        · rfl
        · rfl
        · simp [DecodeEnd.samples]
        · intro h; cases h
        · intro tp h; simp at h
        · intro t p h
          cases h
          exact heos

theorem lt_num_chunks_iff (n j : Nat) : j < num_chunks n ↔ chunk * j < n := by
  simp only [num_chunks, chunk]
  omega

theorem window_push_all_append (C : Nat) (w ts us : List Int) :
    window_push_all C w (ts ++ us) = window_push_all C (window_push_all C w ts) us := by
  simp [window_push_all, List.foldl_append]

theorem range'_succ_left (j k : Nat) (h : j + 1 ≤ k) :
    List.range' j (k - j) = j :: List.range' (j + 1) (k - (j + 1)) := by
  have : k - j = (k - (j + 1)) + 1 := by omega
  rw [this, List.range'_succ]

/-- What the prompt loop does from chunk `j` on: it evaluates the chunks `j, ..., k-1` and
either reaches the end of the prompt or sees chunk `k` fail. -/
theorem prompt_loop_run {β σ : Type} (B : ModelBackend β) (toks : List Int) (fuel : Nat)
    (j : Nat) (s : Session β σ) (hfuel : toks.length - chunk * j ≤ fuel)
    (hj : j ≤ num_chunks toks.length) :
    ∃ (k : Nat) (failed : Bool), j ≤ k ∧ k ≤ num_chunks toks.length ∧
      (failed = true → k < num_chunks toks.length) ∧
      (failed = false → k = num_chunks toks.length) ∧
      (prompt_loop B toks fuel (chunk * j) s).trace =
        s.trace ++ ((List.range' j (k - j)).map (fun i => Event.eval (prompt_chunk toks i) true) ++
          (if failed then
            [Event.eval (prompt_chunk toks k) false, Event.cerr "\nEval error on prompt.\n"]
           else [])) ∧
      (prompt_loop B toks fuel (chunk * j) s).recent =
        window_push_all recent_max s.recent
          ((List.range' j (k - j)).map (prompt_chunk toks)).flatten ∧
      (prompt_loop B toks fuel (chunk * j) s).history = s.history ∧
      (prompt_loop B toks fuel (chunk * j) s).rng = s.rng := by
  induction fuel generalizing j s with
  | zero =>
    have hk : j = num_chunks toks.length := by
      have h1 : ¬ j < num_chunks toks.length := by
        rw [lt_num_chunks_iff]
        omega
      omega
    refine ⟨j, false, le_refl _, hj, by simp, fun _ => hk, ?_, ?_, rfl, rfl⟩
    · simp [prompt_loop]
    · simp [prompt_loop, window_push_all]
  | succ fuel ih =>
    by_cases hlt : chunk * j < toks.length
    · have hspan : (toks.drop (chunk * j)).take
          (min toks.length (chunk * j + chunk) - chunk * j) = prompt_chunk toks j := by
        simp only [prompt_chunk, Nat.mul_succ]
      have hspan2 : (toks.drop (chunk * j)).take
          (min toks.length (chunk * (j + 1)) - chunk * j) = prompt_chunk toks j := rfl
      have hc : 1 ≤ chunk := by decide
      have hjn : j < num_chunks toks.length := (lt_num_chunks_iff _ _).mpr hlt
      by_cases hev : (B.eval s.backend (prompt_chunk toks j)).1 = true
      · have hnext : chunk * j + chunk = chunk * (j + 1) := by rw [Nat.mul_succ]
        obtain ⟨k, failed, h1, h2, h3, h4, h5, h6, h7, h8⟩ := ih (j + 1)
          { s with backend := (B.eval s.backend (prompt_chunk toks j)).2,
                   recent := window_push_all recent_max s.recent (prompt_chunk toks j),
                   trace := s.trace ++ [Event.eval (prompt_chunk toks j) true] }
          (by rw [← hnext]; omega) hjn
        have hloop : prompt_loop B toks (fuel + 1) (chunk * j) s =
            prompt_loop B toks fuel (chunk * (j + 1))
              { s with backend := (B.eval s.backend (prompt_chunk toks j)).2,
                       recent := window_push_all recent_max s.recent (prompt_chunk toks j),
                       trace := s.trace ++ [Event.eval (prompt_chunk toks j) true] } := by
          simp only [prompt_loop, hlt, if_true, hnext, hspan, hspan2, hev, Bool.not_true]
          rfl
        refine ⟨k, failed, by omega, h2, h3, h4, ?_, ?_, ?_, ?_⟩
        · rw [hloop, h5, range'_succ_left j k h1]
          simp [List.append_assoc]
        · rw [hloop, h6, range'_succ_left j k h1]
          simp [window_push_all_append]
        · rw [hloop, h7]
        · rw [hloop, h8]
      · have hev2 : (B.eval s.backend (prompt_chunk toks j)).1 = false := by simpa using hev
        have hloop : prompt_loop B toks (fuel + 1) (chunk * j) s =
            { s with backend := (B.eval s.backend (prompt_chunk toks j)).2,
                     trace := s.trace ++ [Event.eval (prompt_chunk toks j) false,
                       Event.cerr "\nEval error on prompt.\n"] } := by
          simp only [prompt_loop, hlt, if_true, hspan, hspan2, hev2, Bool.not_false]
        refine ⟨j, true, le_refl _, hj, fun _ => hjn, by simp, ?_, ?_, ?_, ?_⟩
        · rw [hloop]
          simp
        · rw [hloop]
          simp [window_push_all]
        · rw [hloop]
        · rw [hloop]
    · have hk : j = num_chunks toks.length := by
        have h1 : ¬ j < num_chunks toks.length := by
          rw [lt_num_chunks_iff]
          exact hlt
        omega
      have hloop : prompt_loop B toks (fuel + 1) (chunk * j) s = s := by
        simp only [prompt_loop, hlt, if_false]
      refine ⟨j, false, le_refl _, hj, by simp, fun _ => hk, ?_, ?_, ?_, ?_⟩
      · rw [hloop]; simp
      · rw [hloop]; simp [window_push_all]
      · rw [hloop]
      · rw [hloop]

theorem turn_eq {β σ : Type} (L : StdLib σ) (B : ModelBackend β) (args : CliArgs)
    (user_input : String) (s : Session β σ) :
    turn L B args user_input s =
      match decode_loop L B args (B.eos_token (turn_ingested B user_input s).backend)
          args.max_new_tokens.toNat
          { turn_ingested B user_input s with
            partial_text := "", out_tokens := [],
            trace := (turn_ingested B user_input s).trace ++ [Event.cout "Assistant> "] } with
      | none => none
      | some s4 =>
        some { s4 with history := s4.history ++ [⟨"assistant", s4.partial_text⟩],
                       trace := s4.trace ++ [Event.cout "\n"] } := rfl

/-- What the prompt phase of a turn does. -/
theorem turn_ingested_run {β σ : Type} (B : ModelBackend β) (user_input : String)
    (s : Session β σ) :
    ∃ (k : Nat) (failed : Bool),
      k ≤ num_chunks (turn_prompt_tokens B user_input s).length ∧
      (failed = true → k < num_chunks (turn_prompt_tokens B user_input s).length) ∧
      (failed = false → k = num_chunks (turn_prompt_tokens B user_input s).length) ∧
      (turn_ingested B user_input s).trace =
        s.trace ++ ([Event.tokenize (build_prompt (s.history ++ [⟨"user", user_input⟩])),
          Event.reset] ++ ingest_events (turn_prompt_tokens B user_input s) k failed) ∧
      (turn_ingested B user_input s).recent =
        window_push_all recent_max s.recent
          ((List.range k).map (prompt_chunk (turn_prompt_tokens B user_input s))).flatten ∧
      (turn_ingested B user_input s).history = s.history ++ [⟨"user", user_input⟩] := by
  obtain ⟨k, failed, _, h2, h3, h4, h5, h6, h7, _⟩ :=
    prompt_loop_run B (turn_prompt_tokens B user_input s)
      (turn_prompt_tokens B user_input s).length 0
      ({ s with
          backend := B.reset (B.tokenize s.backend
            (build_prompt (s.history ++ [⟨"user", user_input⟩])) true).2,
          history := s.history ++ [⟨"user", user_input⟩],
          trace := s.trace ++ [Event.tokenize
            (build_prompt (s.history ++ [⟨"user", user_input⟩])), Event.reset] } : Session β σ)
      (by omega) (Nat.zero_le _)
  have h0 : chunk * 0 = 0 := rfl
  rw [h0] at h5 h6 h7
  simp only [Nat.sub_zero, ← List.range_eq_range'] at h5 h6
  have hdef : turn_ingested B user_input s =
      prompt_loop B (turn_prompt_tokens B user_input s)
        (turn_prompt_tokens B user_input s).length 0
        ({ s with
            backend := B.reset (B.tokenize s.backend
              (build_prompt (s.history ++ [⟨"user", user_input⟩])) true).2,
            history := s.history ++ [⟨"user", user_input⟩],
            trace := s.trace ++ [Event.tokenize
              (build_prompt (s.history ++ [⟨"user", user_input⟩])), Event.reset] } :
          Session β σ) := rfl
  refine ⟨k, failed, h2, h3, h4, ?_, ?_, ?_⟩
  · rw [hdef, h5]
    simp [ingest_events, List.append_assoc]
  · rw [hdef, h6]
  · rw [hdef, h7]

/-- What a turn does, for every backend that returns non-empty logits. -/
theorem turn_run {β σ : Type} (L : StdLib σ) (B : ModelBackend β) (args : CliArgs)
    (user_input : String) (s : Session β σ) (hlog : ∀ b, (B.logits b).1 ≠ []) :
    ∃ (s2 : Session β σ) (k : Nat) (failed : Bool) (steps : List (Int × String))
      (e : DecodeEnd),
      turn L B args user_input s = some s2 ∧
      k ≤ num_chunks (turn_prompt_tokens B user_input s).length ∧
      (failed = true → k < num_chunks (turn_prompt_tokens B user_input s).length) ∧
      (failed = false → k = num_chunks (turn_prompt_tokens B user_input s).length) ∧
      s2.trace = s.trace ++
        turn_events (build_prompt (s.history ++ [⟨"user", user_input⟩]))
          (turn_prompt_tokens B user_input s) k failed
          (B.eos_token (turn_ingested B user_input s).backend) steps e ∧
      s2.history = s.history ++ [⟨"user", user_input⟩,
        ⟨"assistant", join_pieces (steps.map Prod.snd) ++ e.text⟩] ∧
      s2.out_tokens = steps.map Prod.fst ++ e.tokens ∧
      s2.recent = window_push_all recent_max s.recent
        (((List.range k).map (prompt_chunk (turn_prompt_tokens B user_input s))).flatten ++
          steps.map Prod.fst) ∧
      steps.length + e.samples ≤ args.max_new_tokens.toNat ∧
      (e = DecodeEnd.budget → steps.length = args.max_new_tokens.toNat) ∧
      (∀ tp ∈ steps, tp.1 ≠ B.eos_token (turn_ingested B user_input s).backend) ∧
      (∀ t p, e = DecodeEnd.failed t p →
        t ≠ B.eos_token (turn_ingested B user_input s).backend) := by
  obtain ⟨k, failed, hk1, hk2, hk3, hk4, hk5, hk6⟩ := turn_ingested_run B user_input s
  obtain ⟨s4, steps, e, h1, h2, h3, h4, h5, h6, h7, h8, h9, h10⟩ :=
    decode_loop_run L B args (B.eos_token (turn_ingested B user_input s).backend) hlog
      args.max_new_tokens.toNat
      { turn_ingested B user_input s with
        partial_text := "", out_tokens := [],
        trace := (turn_ingested B user_input s).trace ++ [Event.cout "Assistant> "] }
  refine ⟨{ s4 with history := s4.history ++ [⟨"assistant", s4.partial_text⟩],
                    trace := s4.trace ++ [Event.cout "\n"] },
    k, failed, steps, e, ?_, hk1, hk2, hk3, ?_, ?_, ?_, ?_, h7, h8, h9, h10⟩
  · rw [turn_eq, h1]
  · simp only [h2, hk4, turn_events, List.append_assoc]
  · simp only [h6, hk6, h4, List.append_assoc, List.singleton_append, String.empty_append]
  · simpa using h3
  · simp only [h5, hk5, window_push_all_append]

/-! ## Proofs: reading the events of a turn -/

theorem accepted_tokens_append (xs ys : List Event) :
    accepted_tokens (xs ++ ys) = accepted_tokens xs ++ accepted_tokens ys := by
  simp [accepted_tokens]

theorem submitted_tokens_append (xs ys : List Event) :
    submitted_tokens (xs ++ ys) = submitted_tokens xs ++ submitted_tokens ys := by
  simp [submitted_tokens]

theorem accepted_tokens_chunks (toks : List Int) (l : List Nat) :
    accepted_tokens (l.map (fun j => Event.eval (prompt_chunk toks j) true)) =
      (l.map (prompt_chunk toks)).flatten := by
  induction l with
  | nil => rfl
  | cons j l ih =>
    simp only [accepted_tokens, List.map_cons, List.flatten_cons, Event.accepted] at ih ⊢
    rw [ih]

theorem accepted_tokens_ingest (toks : List Int) (k : Nat) (failed : Bool) :
    accepted_tokens (ingest_events toks k failed) =
      ((List.range k).map (prompt_chunk toks)).flatten := by
  unfold ingest_events
  rw [accepted_tokens_append, accepted_tokens_chunks]
  cases failed <;> simp [accepted_tokens, Event.accepted]

theorem accepted_tokens_steps (steps : List (Int × String)) :
    accepted_tokens (steps.map step_events).flatten = steps.map Prod.fst := by
  induction steps with
  | nil => rfl
  | cons tp steps ih =>
    rw [List.map_cons, List.flatten_cons, accepted_tokens_append, ih]
    simp [accepted_tokens, step_events, Event.accepted]

theorem accepted_tokens_decode (eos : Int) (steps : List (Int × String)) (e : DecodeEnd) :
    accepted_tokens (decode_events eos steps e) = steps.map Prod.fst := by
  unfold decode_events
  rw [accepted_tokens_append, accepted_tokens_steps]
  cases e <;> simp [accepted_tokens, DecodeEnd.events, Event.accepted]

theorem accepted_tokens_turn (prompt : String) (toks : List Int) (k : Nat) (failed : Bool)
    (eos : Int) (steps : List (Int × String)) (e : DecodeEnd) :
    accepted_tokens (turn_events prompt toks k failed eos steps e) =
      ((List.range k).map (prompt_chunk toks)).flatten ++ steps.map Prod.fst := by
  unfold turn_events
  simp only [accepted_tokens_append, accepted_tokens_ingest, accepted_tokens_decode]
  simp [accepted_tokens, Event.accepted]

theorem filter_is_sample_steps (steps : List (Int × String)) :
    ((steps.map step_events).flatten.filter Event.is_sample).length = steps.length := by
  induction steps with
  | nil => rfl
  | cons tp steps ih =>
    rw [List.map_cons, List.flatten_cons, List.filter_append, List.length_append, ih]
    simp [step_events, Event.is_sample, List.filter]
    omega

theorem filter_is_sample_ingest (toks : List Int) (k : Nat) (failed : Bool) :
    (ingest_events toks k failed).filter Event.is_sample = [] := by
  unfold ingest_events
  rw [List.filter_append]
  have h1 : ((List.range k).map (fun j => Event.eval (prompt_chunk toks j) true)).filter
      Event.is_sample = [] := by
    rw [List.filter_eq_nil_iff]
    intro a ha
    simp only [List.mem_map] at ha
    obtain ⟨j, _, rfl⟩ := ha
    simp [Event.is_sample]
  rw [h1]
  cases failed <;> simp [Event.is_sample, List.filter]

/-- The number of calls of `sample_next_token` recorded in the events of a turn. -/
theorem filter_is_sample_turn (prompt : String) (toks : List Int) (k : Nat) (failed : Bool)
    (eos : Int) (steps : List (Int × String)) (e : DecodeEnd) :
    ((turn_events prompt toks k failed eos steps e).filter Event.is_sample).length =
      steps.length + e.samples := by
  unfold turn_events decode_events
  simp only [List.filter_append, List.length_append, filter_is_sample_ingest,
    filter_is_sample_steps]
  cases e <;> simp [DecodeEnd.events, DecodeEnd.samples, Event.is_sample, List.filter]

theorem cerr_not_mem_steps (m : String) (steps : List (Int × String)) :
    Event.cerr m ∉ (steps.map step_events).flatten := by
  intro h
  rw [List.mem_flatten] at h
  obtain ⟨l, hl, hm⟩ := h
  rw [List.mem_map] at hl
  obtain ⟨tp, _, rfl⟩ := hl
  simp [step_events] at hm

theorem sample_mem_steps (t : Int) (steps : List (Int × String)) :
    Event.sample t ∈ (steps.map step_events).flatten ↔ ∃ tp ∈ steps, tp.1 = t := by
  constructor
  · intro h
    rw [List.mem_flatten] at h
    obtain ⟨l, hl, hm⟩ := h
    rw [List.mem_map] at hl
    obtain ⟨tp, htp, rfl⟩ := hl
    refine ⟨tp, htp, ?_⟩
    simp [step_events] at hm
    exact hm.symm
  · rintro ⟨tp, htp, rfl⟩
    rw [List.mem_flatten]
    exact ⟨step_events tp, List.mem_map.mpr ⟨tp, htp, rfl⟩, by simp [step_events]⟩

theorem cerr_generation_not_mem_ingest (toks : List Int) (k : Nat) (failed : Bool) :
    Event.cerr "\nEval error during generation.\n" ∉ ingest_events toks k failed := by
  have hstr : ¬ ("\nEval error during generation.\n" = "\nEval error on prompt.\n") := by decide
  unfold ingest_events
  cases failed <;> simp [hstr]

theorem sample_not_mem_ingest (t : Int) (toks : List Int) (k : Nat) (failed : Bool) :
    Event.sample t ∉ ingest_events toks k failed := by
  unfold ingest_events
  cases failed <;> simp

/-- The generation error message is printed exactly when the decode loop ended with a failed
evaluation. -/
theorem cerr_generation_mem_turn (prompt : String) (toks : List Int) (k : Nat) (failed : Bool)
    (eos : Int) (steps : List (Int × String)) (e : DecodeEnd) :
    Event.cerr "\nEval error during generation.\n" ∈
        turn_events prompt toks k failed eos steps e ↔
      ∃ next piece, e = DecodeEnd.failed next piece := by
  unfold turn_events decode_events
  simp only [List.mem_append, cerr_generation_not_mem_ingest, cerr_not_mem_steps]
  cases e <;> simp [DecodeEnd.events]

/-- The end-of-sequence token is recorded as sampled exactly when the decode loop ended by
sampling it. -/
theorem sample_eos_mem_turn (prompt : String) (toks : List Int) (k : Nat) (failed : Bool)
    (eos : Int) (steps : List (Int × String)) (e : DecodeEnd)
    (hsteps : ∀ tp ∈ steps, tp.1 ≠ eos) (hfail : ∀ t p, e = DecodeEnd.failed t p → t ≠ eos) :
    Event.sample eos ∈ turn_events prompt toks k failed eos steps e ↔ e = DecodeEnd.eos := by
  have hs : ¬ Event.sample eos ∈ (steps.map step_events).flatten := by
    rw [sample_mem_steps]
    rintro ⟨tp, htp, h⟩
    exact hsteps tp htp h
  unfold turn_events decode_events
  simp only [List.mem_append, sample_not_mem_ingest, hs]
  cases e with
  | budget => simp [DecodeEnd.events]
  | eos => simp [DecodeEnd.events]
  | failed t p =>
    have ht : ¬ eos = t := fun h => hfail t p rfl h.symm
    simp [DecodeEnd.events, ht]

/-! ## Proofs: prompt chunks -/

theorem prompt_chunk_eq_take (toks : List Int) (j : Nat) :
    prompt_chunk toks j = (toks.drop (chunk * j)).take chunk := by
  unfold prompt_chunk
  rw [List.take_eq_take, List.length_drop]
  have : chunk * (j + 1) = chunk * j + chunk := Nat.mul_succ _ _
  omega

theorem length_prompt_chunk (toks : List Int) (j : Nat) :
    (prompt_chunk toks j).length = min toks.length (chunk * (j + 1)) - chunk * j := by
  unfold prompt_chunk
  rw [List.length_take, List.length_drop]
  omega

theorem flatten_prompt_chunks (toks : List Int) (k : Nat) :
    ((List.range k).map (prompt_chunk toks)).flatten = toks.take (chunk * k) := by
  induction k with
  | zero => simp
  | succ k ih =>
    rw [List.range_succ, List.map_append, List.flatten_append, ih, Nat.mul_succ, List.take_add]
    simp [prompt_chunk_eq_take]

theorem flatten_all_prompt_chunks (toks : List Int) :
    ((List.range (num_chunks toks.length)).map (prompt_chunk toks)).flatten = toks := by
  rw [flatten_prompt_chunks]
  apply List.take_of_length_le
  have h : ¬ num_chunks toks.length < num_chunks toks.length := lt_irrefl _
  rw [lt_num_chunks_iff] at h
  omega

theorem mem_decode_events (ev : Event) (eos : Int) (steps : List (Int × String))
    (e : DecodeEnd) :
    ev ∈ decode_events eos steps e ↔ (∃ tp ∈ steps, ev ∈ step_events tp) ∨ ev ∈ e.events eos := by
  unfold decode_events
  rw [List.mem_append, List.mem_flatten]
  constructor
  · rintro (⟨l, hl, hm⟩ | h)
    · rw [List.mem_map] at hl
      obtain ⟨tp, htp, rfl⟩ := hl
      exact Or.inl ⟨tp, htp, hm⟩
    · exact Or.inr h
  · rintro (⟨tp, htp, hm⟩ | h)
    · exact Or.inl ⟨step_events tp, List.mem_map.mpr ⟨tp, htp, rfl⟩, hm⟩
    · exact Or.inr h

/-- Without a failed evaluation every submitted token is an accepted token. -/
theorem accepted_eq_submitted (evs : List Event) (h : ∀ c, Event.eval c false ∉ evs) :
    accepted_tokens evs = submitted_tokens evs := by
  induction evs with
  | nil => rfl
  | cons ev evs ih =>
    have hrest : ∀ c, Event.eval c false ∉ evs := fun c hc => h c (List.mem_cons_of_mem _ hc)
    have hhead : Event.accepted ev = Event.submitted ev := by
      cases ev with
      | eval tokens ok =>
        cases ok with
        | true => rfl
        | false => exact absurd (List.mem_cons_self _ _) (h tokens)
      | _ => rfl
    have ih2 := ih hrest
    simp only [accepted_tokens, submitted_tokens, List.map_cons, List.flatten_cons] at ih2 ⊢
    rw [hhead, ih2]

theorem decode_end_tokens_le (e : DecodeEnd) : e.tokens.length ≤ e.samples := by
  cases e <;> simp [DecodeEnd.tokens, DecodeEnd.samples]

/-- The adjusted logit of an index that occurs in the window. -/
theorem getElem?_penalty_step_of_count_pos (logits : List ℚ) (recent : List Int)
    (rp fp pp : ℚ) (i : Nat) (hi : i < logits.length) (hc : ¬ recent.count (i : Int) = 0) :
    (penalty_step logits recent rp fp pp).logits[i]? =
      some (repeat_base rp logits[i] - fp * (recent.count (i : Int) : ℚ) - pp) := by
  simp only [penalty_step, getElem?_apply_repeat_frequency_presence,
    List.getElem?_eq_getElem hi, Option.map_some', hc, if_false]

/-- C1: for an index `i` of the logits vector that occurs `c ≥ 1` times in the window, the
penalty step of `sample_next_token` sets `adjusted[i] = base - frequency_penalty * c -
presence_penalty`, where `base` is `logits[i]` if `repeat_penalty = 1`, `logits[i] /
repeat_penalty` if `repeat_penalty ≠ 1` and `logits[i] > 0`, and `logits[i] * repeat_penalty`
otherwise. -/
theorem C1_penalty_value (logits : List ℚ) (recent : List Int)
    (repeat_penalty frequency_penalty presence_penalty : ℚ) (i : Nat)
    (hi : i < logits.length) (hc : 1 ≤ recent.count (i : Int)) :
    (penalty_step logits recent repeat_penalty frequency_penalty presence_penalty).logits[i]? =
      some ((if repeat_penalty = 1 then logits[i]
             else if logits[i] > 0 then logits[i] / repeat_penalty
             else logits[i] * repeat_penalty)
            - frequency_penalty * (recent.count (i : Int) : ℚ) - presence_penalty) := by
  have hne : ¬ recent.count (i : Int) = 0 := by omega
  rw [getElem?_penalty_step_of_count_pos logits recent _ _ _ i hi hne]
  rfl

/-- C1, the scenario of the spec: `repeat_penalty = 1.2`, logit `2.0`, one occurrence and no
frequency or presence penalty give `2.0 / 1.2 = 5/3`. -/
theorem C1_penalty_value_witness :
    (0 < [(2 : ℚ)].length ∧ 1 ≤ [(0 : Int)].count ((0 : Nat) : Int)) ∧
      (penalty_step [2] [0] (6 / 5) 0 0).logits[0]? = some (2 / (6 / 5)) ∧
      (2 : ℚ) / (6 / 5) = 5 / 3 := by
  refine ⟨⟨by decide, by decide⟩, ?_, by norm_num⟩
  rw [C1_penalty_value [2] [0] (6 / 5) 0 0 0 (by decide) (by decide)]
  norm_num

/-- C2: the penalty step leaves the caller's vector as it was and returns a vector of the
same length in which every index that does not occur in the window keeps its input logit;
with an empty window nothing changes, and window tokens that are negative or not below the
vocabulary size have no effect on the result. -/
theorem C2_penalty_frame (logits_in : List ℚ) (recent : List Int)
    (repeat_penalty frequency_penalty presence_penalty : ℚ) :
    (penalty_step logits_in recent repeat_penalty frequency_penalty presence_penalty).logits_in
        = logits_in ∧
    (penalty_step logits_in recent repeat_penalty frequency_penalty presence_penalty).logits.length
        = logits_in.length ∧
    (∀ i : Nat, (i : Int) ∉ recent →
      (penalty_step logits_in recent repeat_penalty frequency_penalty presence_penalty).logits[i]?
        = logits_in[i]?) ∧
    (recent = [] →
      (penalty_step logits_in recent repeat_penalty frequency_penalty presence_penalty).logits
        = logits_in) ∧
    (penalty_step logits_in recent repeat_penalty frequency_penalty presence_penalty).logits =
      (penalty_step logits_in
        (recent.filter (fun t => decide (0 ≤ t ∧ t < (logits_in.length : Int))))
        repeat_penalty frequency_penalty presence_penalty).logits := by
  refine ⟨rfl, length_apply_repeat_frequency_presence _ _ _ _ _, ?_, ?_, ?_⟩
  · intro i hi
    have hc : recent.count (i : Int) = 0 := List.count_eq_zero.mpr hi
    simp only [penalty_step, getElem?_apply_repeat_frequency_presence, hc, if_true]
    cases logits_in[i]? <;> rfl
  · intro h
    subst h
    rfl
  · apply List.ext_getElem?
    intro i
    simp only [penalty_step, getElem?_apply_repeat_frequency_presence]
    by_cases hi : i < logits_in.length
    · have hp : (decide (0 ≤ (i : Int) ∧ (i : Int) < (logits_in.length : Int))) = true := by
        simp only [decide_eq_true_eq]
        omega
      have hcnt : List.count (i : Int)
          (recent.filter (fun t => decide (0 ≤ t ∧ t < (logits_in.length : Int)))) =
          List.count (i : Int) recent := by
        apply List.count_filter
        exact hp
      rw [hcnt]
    · have : logits_in[i]? = none := List.getElem?_eq_none (by omega)
      simp [this]

/-- C2 at a concrete input: window `[1, -3, 7]` over three logits. -/
theorem C2_penalty_frame_witness :
    (penalty_step [1, 2, 3] [1, -3, 7] 2 1 1).logits_in = [1, 2, 3] ∧
    (penalty_step [1, 2, 3] [1, -3, 7] 2 1 1).logits = [1, -1, 3] ∧
    ((0 : Nat) : Int) ∉ [(1 : Int), -3, 7] ∧
    (penalty_step [1, 2, 3] [1, -3, 7] 2 1 1).logits[0]? = [(1 : ℚ), 2, 3][0]? := by
  refine ⟨(C2_penalty_frame [1, 2, 3] [1, -3, 7] 2 1 1).1, by decide!, by decide, ?_⟩
  exact (C2_penalty_frame [1, 2, 3] [1, -3, 7] 2 1 1).2.2.1 0 (by decide)

/-- C3: penalty monotonicity.  For a token `i` that appears in the window, raising
`presence_penalty` and/or `frequency_penalty` (everything else equal) never raises the
adjusted logit of `i`; the two single-parameter cases of the claim are `fp = fp'` and
`pp = pp'`. -/
theorem C3_penalty_monotone (logits : List ℚ) (recent : List Int)
    (repeat_penalty fp fp' pp pp' : ℚ) (i : Nat)
    (hi : i < logits.length) (hmem : (i : Int) ∈ recent)
    (hfp : fp ≤ fp') (hpp : pp ≤ pp') :
    ∃ a a' : ℚ,
      (penalty_step logits recent repeat_penalty fp pp).logits[i]? = some a ∧
      (penalty_step logits recent repeat_penalty fp' pp').logits[i]? = some a' ∧
      a' ≤ a := by
  have hc : ¬ recent.count (i : Int) = 0 := by
    rw [List.count_eq_zero]
    exact fun h => h hmem
  refine ⟨_, _, getElem?_penalty_step_of_count_pos logits recent _ fp pp i hi hc,
    getElem?_penalty_step_of_count_pos logits recent _ fp' pp' i hi hc, ?_⟩
  · have hn : (0 : ℚ) ≤ (recent.count (i : Int) : ℚ) := Nat.cast_nonneg _
    have := mul_le_mul_of_nonneg_right hfp hn
    linarith

/-- C3 at a concrete input: presence penalty raised from `0` to `1`. -/
theorem C3_penalty_monotone_witness :
    ∃ a a' : ℚ,
      (penalty_step [2, 5] [1, 1] (6 / 5) (1 / 2) 0).logits[1]? = some a ∧
      (penalty_step [2, 5] [1, 1] (6 / 5) (1 / 2) 1).logits[1]? = some a' ∧
      a' ≤ a :=
  C3_penalty_monotone [2, 5] [1, 1] (6 / 5) (1 / 2) (1 / 2) 0 1 1 (by decide) (by decide)
    (le_refl _) (by norm_num)

/-- C4: greedy path.  For non-empty logits and `temperature ≤ 0` there is one index `m`, the
lowest index whose penalty-adjusted logit is maximal, that `sample_next_token` returns for
every library, every state of the random source, every `top_k` and every `top_p`; the random
source is left as it was, so a repeated call returns the same token. -/
theorem C4_greedy (logits : List ℚ) (recent : List Int) (temperature : ℚ)
    (repeat_penalty frequency_penalty presence_penalty : ℚ)
    (hne : logits ≠ []) (ht : temperature ≤ 0) :
    ∃ (m : Nat) (mv : ℚ), m < logits.length ∧
      (penalty_step logits recent repeat_penalty frequency_penalty presence_penalty).logits[m]?
        = some mv ∧
      (∀ (j : Nat) (x : ℚ), (penalty_step logits recent repeat_penalty frequency_penalty
        presence_penalty).logits[j]? = some x → x ≤ mv) ∧
      (∀ (j : Nat) (x : ℚ), j < m → (penalty_step logits recent repeat_penalty frequency_penalty
        presence_penalty).logits[j]? = some x → x < mv) ∧
      ∀ (σ : Type) (L : StdLib σ) (rng : σ) (top_k : Int) (top_p : ℚ),
        sample_next_token L rng logits recent temperature top_k top_p repeat_penalty
          frequency_penalty presence_penalty = some ((m : Int), rng) := by
  have hadj := penalty_step_logits_ne_nil logits recent repeat_penalty frequency_penalty
    presence_penalty hne
  obtain ⟨mv, h1, h2, h3⟩ := max_element_spec _ hadj
  refine ⟨_, mv, ?_, h1, h2, h3, ?_⟩
  · have := max_element_lt_length _ hadj
    rwa [show (penalty_step logits recent repeat_penalty frequency_penalty
      presence_penalty).logits.length = logits.length from
      length_apply_repeat_frequency_presence _ _ _ _ _] at this
  · intro σ L rng top_k top_p
    simp only [sample_next_token, ht, if_true, greedy_argmax]

/-- C4, the scenario of the spec: logits `[5, 1, 1]`, empty window, temperature `0` return
token `0`, here with the default `top_k = 40`, `top_p = 0.95`. -/
theorem C4_greedy_witness :
    ([(5 : ℚ), 1, 1] ≠ [] ∧ (0 : ℚ) ≤ 0) ∧
      sample_next_token refStd [1 / 2] [5, 1, 1] [] 0 40 (19 / 20) 1 0 0 = some (0, [1 / 2]) := by
  refine ⟨⟨by decide, le_refl _⟩, ?_⟩
  obtain ⟨m, mv, _, _, _, hfirst, hs⟩ := C4_greedy [5, 1, 1] [] 0 1 0 0 (by decide) (le_refl _)
  rw [hs]
  have h0 : ¬ 0 < m := by
    intro hpos
    have h5 := hfirst 0 5 hpos (by decide!)
    have hle : mv ≤ 5 := by
      have hm3 : m < 3 := by assumption
      have hmv : (penalty_step [5, 1, 1] [] 1 0 0).logits[m]? = some mv := by assumption
      interval_cases m
      · have : mv = 1 := by
          have h1 : (penalty_step [5, 1, 1] [] 1 0 0).logits[1]? = some (1 : ℚ) := by decide!
          rw [h1] at hmv
          exact (Option.some.inj hmv).symm
        rw [this]; norm_num
      · have : mv = 1 := by
          have h1 : (penalty_step [5, 1, 1] [] 1 0 0).logits[2]? = some (1 : ℚ) := by decide!
          rw [h1] at hmv
          exact (Option.some.inj hmv).symm
        rw [this]; norm_num
    exact absurd h5 (not_lt.mpr hle)
  have : m = 0 := by omega
  subst this
  rfl

/-- C5: top-k.  `logits` is the adjusted vector of size `n`.  If `0 < top_k < n`, the
candidate list built before nucleus filtering has exactly `top_k` entries, its token ids are
pairwise distinct indices of the vector carrying their own weights, no discarded index has a
weight above that of a retained entry, and the list after nucleus filtering has at most
`top_k` entries.  Otherwise the candidates are all `n` indices. -/
theorem C5_top_k {σ : Type} (L : StdLib σ) (hL : L.Lawful) (logits : List ℚ)
    (temperature : ℚ) (top_k : Int) (top_p : ℚ) :
    (0 < top_k ∧ top_k < (logits.length : Int) →
      ((sorted_candidates L (softmax_weights L logits temperature) top_k).length : Int) = top_k ∧
      ((sorted_candidates L (softmax_weights L logits temperature) top_k).map Prod.fst).Nodup ∧
      (∀ kv ∈ sorted_candidates L (softmax_weights L logits temperature) top_k,
        0 ≤ kv.1 ∧ kv.1 < (logits.length : Int) ∧
        kv.2 = prob_at (softmax_weights L logits temperature) kv.1) ∧
      (∀ d : Int, 0 ≤ d → d < (logits.length : Int) →
        d ∉ (sorted_candidates L (softmax_weights L logits temperature) top_k).map Prod.fst →
        ∀ kv ∈ sorted_candidates L (softmax_weights L logits temperature) top_k,
          prob_at (softmax_weights L logits temperature) d ≤ kv.2) ∧
      ((nucleus_candidates L logits temperature top_k top_p).length : Int) ≤ top_k) ∧
    (¬ (0 < top_k ∧ top_k < (logits.length : Int)) →
      ((sorted_candidates L (softmax_weights L logits temperature) top_k).map Prod.fst).Perm
        (iota logits.length) ∧
      ∀ kv ∈ sorted_candidates L (softmax_weights L logits temperature) top_k,
        kv.2 = prob_at (softmax_weights L logits temperature) kv.1) := by
  have hpl := length_softmax_weights L logits temperature
  have hperm := sorted_candidates_perm L hL (softmax_weights L logits temperature) top_k
  have hfst := sorted_candidates_fst_perm L hL (softmax_weights L logits temperature) top_k
  have hsub := top_k_indices_sublist L hL (softmax_weights L logits temperature) top_k
  have hlen := length_sorted_candidates L hL (softmax_weights L logits temperature) top_k
  rw [hpl] at hlen hsub
  constructor
  · intro hk
    have hlen2 : (sorted_candidates L (softmax_weights L logits temperature) top_k).length =
        top_k.toNat := by
      rw [hlen, if_pos hk]
    refine ⟨by rw [hlen2]; omega, hfst.nodup_iff.mpr hsub.1, ?_, ?_, ?_⟩
    · intro kv hkv
      have hg := mem_gather _ _ kv (hperm.mem_iff.mp hkv)
      exact ⟨(hsub.2 kv.1 hg.1).1, (hsub.2 kv.1 hg.1).2, hg.2⟩
    · intro d hd0 hdn hd kv hkv
      have hg := mem_gather _ _ kv (hperm.mem_iff.mp hkv)
      have hidx := top_k_indices_of_lt L hL (softmax_weights L logits temperature) top_k hk.1
        (by rw [hpl]; exact hk.2)
      have hd2 : d ∉ top_k_indices L (softmax_weights L logits temperature) top_k :=
        fun h => hd (hfst.mem_iff.mpr h)
      have hdi : d ∈ iota (softmax_weights L logits temperature).length := by
        rw [mem_iota, hpl]
        exact ⟨hd0, hdn⟩
      have hdn2 := (hL.nth_perm (prob_at (softmax_weights L logits temperature)) top_k.toNat
        (iota (softmax_weights L logits temperature).length)).mem_iff.mpr hdi
      rw [← List.take_append_drop top_k.toNat (L.nth_element _ top_k.toNat _),
        List.mem_append] at hdn2
      rw [hidx] at hd2 hg
      rcases hdn2 with h | h
      · exact absurd h hd2
      · rw [hg.2]
        exact hL.nth_part (prob_at (softmax_weights L logits temperature)) top_k.toNat _ _ _
          hg.1 h
    · have hne : sorted_candidates L (softmax_weights L logits temperature) top_k ≠ [] := by
        intro hnil
        rw [hnil] at hlen2
        simp only [List.length_nil] at hlen2
        omega
      obtain ⟨m, _, hm, heq⟩ := top_p_filter_eq_take top_p _ hne
      have : (nucleus_candidates L logits temperature top_k top_p).length ≤ top_k.toNat := by
        unfold nucleus_candidates
        rw [heq, List.length_take, ← hlen2]
        exact min_le_right _ _
      omega
  · intro hk
    constructor
    · have := top_k_indices_of_not L (softmax_weights L logits temperature) top_k
        (by rw [hpl]; exact hk)
      rw [this, hpl] at hfst
      exact hfst
    · intro kv hkv
      exact (mem_gather _ _ kv (hperm.mem_iff.mp hkv)).2

/-- C5, the scenario of the spec: logits `[1, 1, 1]`, `top_k = 1`, `temperature = 1`,
`top_p = 1` leave exactly one candidate, whose normalised probability is `1`. -/
theorem C5_top_k_witness :
    ((0 : Int) < 1 ∧ (1 : Int) < ([(1 : ℚ), 1, 1].length : Int)) ∧
      ((sorted_candidates refStd (softmax_weights refStd [1, 1, 1] 1) 1).length : Int) = 1 ∧
      ((nucleus_candidates refStd [1, 1, 1] 1 1 1).length : Int) ≤ 1 ∧
      normalize (nucleus_candidates refStd [1, 1, 1] 1 1 1)
        (cand_sum (nucleus_candidates refStd [1, 1, 1] 1 1 1)) = [(0, 1)] := by
  have h := (C5_top_k refStd refStd_lawful [1, 1, 1] 1 1 1).1 ⟨by decide, by decide⟩
  exact ⟨⟨by decide, by decide⟩, h.1, h.2.2.2.2, by decide!⟩

/-- C6: top-p coverage.  For non-empty (adjusted) logits, every `top_k` and every `top_p`,
the candidate list after the nucleus filter is non-empty and is a prefix of the
descending-sorted candidate list. -/
theorem C6_top_p_coverage {σ : Type} (L : StdLib σ) (hL : L.Lawful) (logits : List ℚ)
    (temperature : ℚ) (top_k : Int) (top_p : ℚ) (hne : logits ≠ []) :
    nucleus_candidates L logits temperature top_k top_p ≠ [] ∧
      nucleus_candidates L logits temperature top_k top_p <+:
        sorted_candidates L (softmax_weights L logits temperature) top_k :=
  nucleus_candidates_initial L hL logits temperature top_k top_p hne

/-- C6 at concrete inputs: `top_p = 0` and `top_p = 1/2` (the first weight alone reaches
the threshold) both keep the single best candidate of `[1, 3, 2]`. -/
theorem C6_top_p_coverage_witness :
    [(1 : ℚ), 3, 2] ≠ [] ∧
      (nucleus_candidates refStd [1, 3, 2] 1 0 (1 / 2) ≠ [] ∧
        nucleus_candidates refStd [1, 3, 2] 1 0 (1 / 2) <+:
          sorted_candidates refStd (softmax_weights refStd [1, 3, 2] 1) 0) ∧
      nucleus_candidates refStd [1, 3, 2] 1 0 (1 / 2) = [(1, 1)] ∧
      nucleus_candidates refStd [1, 3, 2] 1 0 0 = [(1, 1)] :=
  ⟨by decide, C6_top_p_coverage refStd refStd_lawful [1, 3, 2] 1 0 (1 / 2) (by decide),
    by decide!, by decide!⟩

/-- C7: normalisation.  For non-empty logits and `temperature > 0`, whenever the retained
weights have a positive sum (the fallback branch is not taken), `sample_next_token` draws
from the list of retained candidates with each weight divided by the sum of the retained
weights; these probabilities are non-negative, in non-increasing order, and sum to `1`. -/
theorem C7_normalization {σ : Type} (L : StdLib σ) (hL : L.Lawful) (hexp : ∀ x, 0 ≤ L.exp x)
    (rng : σ) (logits_in : List ℚ) (recent : List Int) (temperature : ℚ) (top_k : Int)
    (top_p repeat_penalty frequency_penalty presence_penalty : ℚ)
    (hne : logits_in ≠ []) (ht : 0 < temperature)
    (hsum : 0 < cand_sum (nucleus_candidates L
      (penalty_step logits_in recent repeat_penalty frequency_penalty presence_penalty).logits
      temperature top_k top_p)) :
    sample_next_token L rng logits_in recent temperature top_k top_p repeat_penalty
        frequency_penalty presence_penalty =
      (draw (final_candidates L
        (penalty_step logits_in recent repeat_penalty frequency_penalty presence_penalty).logits
        temperature top_k top_p) (L.uniform01 rng).1).map (fun t => (t, (L.uniform01 rng).2)) ∧
    final_candidates L
        (penalty_step logits_in recent repeat_penalty frequency_penalty presence_penalty).logits
        temperature top_k top_p =
      (nucleus_candidates L
        (penalty_step logits_in recent repeat_penalty frequency_penalty presence_penalty).logits
        temperature top_k top_p).map (fun kv => (kv.1, kv.2 /
          ((nucleus_candidates L (penalty_step logits_in recent repeat_penalty frequency_penalty
            presence_penalty).logits temperature top_k top_p).map Prod.snd).sum)) ∧
    (∀ kv ∈ final_candidates L
        (penalty_step logits_in recent repeat_penalty frequency_penalty presence_penalty).logits
        temperature top_k top_p, 0 ≤ kv.2) ∧
    (final_candidates L
        (penalty_step logits_in recent repeat_penalty frequency_penalty presence_penalty).logits
        temperature top_k top_p).Pairwise (fun a b => b.2 ≤ a.2) ∧
    ((final_candidates L
        (penalty_step logits_in recent repeat_penalty frequency_penalty presence_penalty).logits
        temperature top_k top_p).map Prod.snd).sum = 1 := by
  have hadj := penalty_step_logits_ne_nil logits_in recent repeat_penalty frequency_penalty
    presence_penalty hne
  generalize hadj_eq : (penalty_step logits_in recent repeat_penalty frequency_penalty
    presence_penalty).logits = adj at hadj hsum ⊢
  have hpre := (nucleus_candidates_initial L hL adj temperature top_k top_p hadj).2
  have hsorted : (nucleus_candidates L adj temperature top_k top_p).Pairwise
      (fun a b => b.2 ≤ a.2) :=
    (hL.sort_sorted (fun kv => kv.2) _).sublist hpre.sublist
  have hnonneg : ∀ kv ∈ nucleus_candidates L adj temperature top_k top_p, 0 ≤ kv.2 := by
    intro kv hkv
    have hmem := hpre.subset hkv
    have hg := mem_gather _ _ kv
      ((sorted_candidates_perm L hL (softmax_weights L adj temperature) top_k).mem_iff.mp hmem)
    rw [hg.2]
    exact prob_at_nonneg _ (softmax_weights_nonneg L hexp adj temperature) _
  refine ⟨?_, ?_, ?_, ?_, ?_⟩
  · have h1 : ¬ temperature ≤ 0 := not_le.mpr ht
    have h2 : ¬ cand_sum (nucleus_candidates L adj temperature top_k top_p) ≤ 0 :=
      not_le.mpr hsum
    simp only [sample_next_token, hadj_eq, h1, hadj, h2, if_false, final_candidates]
  · simp only [final_candidates, normalize, cand_sum_eq]
  · intro kv hkv
    simp only [final_candidates, normalize, List.mem_map] at hkv
    obtain ⟨kv0, hkv0, rfl⟩ := hkv
    exact div_nonneg (hnonneg kv0 hkv0) (le_of_lt hsum)
  · simp only [final_candidates, normalize]
    rw [List.pairwise_map]
    exact hsorted.imp (fun h => div_le_div_of_nonneg_right h (le_of_lt hsum))
  · rw [final_candidates, sum_normalize, ← cand_sum_eq]
    exact div_self (ne_of_gt hsum)

/-- C7 at a concrete input: logits `[1, 3, 2]`, temperature `1`, no filters. -/
theorem C7_normalization_witness :
    ((∀ x, 0 ≤ refStd.exp x) ∧ [(1 : ℚ), 3, 2] ≠ [] ∧ (0 : ℚ) < 1 ∧
      0 < cand_sum (nucleus_candidates refStd (penalty_step [1, 3, 2] [] 1 0 0).logits 1 0 1)) ∧
    final_candidates refStd (penalty_step [1, 3, 2] [] 1 0 0).logits 1 0 1 =
      [(1, 6 / 11), (2, 3 / 11), (0, 2 / 11)] ∧
    ((final_candidates refStd (penalty_step [1, 3, 2] [] 1 0 0).logits 1 0 1).map Prod.snd).sum
      = 1 :=
  ⟨⟨ref_exp_nonneg, by decide, by norm_num, by decide!⟩, by decide!,
    (C7_normalization refStd refStd_lawful ref_exp_nonneg [1 / 2] [1, 3, 2] [] 1 0 1 1 0 0
      (by decide) (by norm_num) (by decide!)).2.2.2.2⟩

/-- C8: cumulative draw.  On a non-empty candidate list the walk returns the token of the
first candidate, in list order, whose running sum of probabilities (that candidate included)
is `≥ r`; if no running sum reaches `r` it returns the token of the last candidate; either
way it returns the token of some candidate. -/
theorem C8_cumulative_draw (cand : List (Int × ℚ)) (r : ℚ) (hc : cand ≠ []) :
    (∀ i : Nat, i < cand.length → r ≤ running_sum cand i →
      (∀ j : Nat, j < i → running_sum cand j < r) →
      draw cand r = cand[i]?.map Prod.fst) ∧
    ((∀ i : Nat, i < cand.length → running_sum cand i < r) →
      draw cand r = cand.getLast?.map Prod.fst) ∧
    ∃ kv ∈ cand, draw cand r = some kv.1 := by
  have hw := sample_walk_spec r cand 0
  simp only [zero_add] at hw
  refine ⟨?_, ?_, draw_mem cand r hc⟩
  · intro i hi hr hbefore
    have h := hw.1 i hi hr hbefore
    simp only [draw, h, List.getElem?_eq_getElem hi, Option.map_some']
  · intro hall
    have h := hw.2 hall
    simp only [draw, h]

/-- C8 at a concrete input: with probabilities `1/2, 1/4, 1/4` and `r = 3/5` the second
candidate is the first whose running sum (`3/4`) reaches `r`. -/
theorem C8_cumulative_draw_witness :
    [((7 : Int), (1 / 2 : ℚ)), (8, 1 / 4), (9, 1 / 4)] ≠ [] ∧
      draw [(7, 1 / 2), (8, 1 / 4), (9, 1 / 4)] (3 / 5) = some 8 := by
  refine ⟨by decide, ?_⟩
  rw [(C8_cumulative_draw [(7, 1 / 2), (8, 1 / 4), (9, 1 / 4)] (3 / 5) (by decide)).1 1
    (by decide) (by decide!) (by intro j hj; interval_cases j; decide!)]
  rfl

/-- C9: window bound.  With the push of `main` (`push_back`, then `pop_front` if the size
exceeds `C`), pushing `ts` into a window `w` of length `≤ C` yields exactly the last
`min C (|w| + |ts|)` elements of `w ++ ts`, in order; the length never exceeds `C`, and after
more than `C` pushes the window holds exactly the last `C` pushed tokens. -/
theorem C9_window_bound (C : Nat) (w ts : List Int) (hw : w.length ≤ C) :
    window_push_all C w ts =
      (w ++ ts).drop ((w.length + ts.length) - min C (w.length + ts.length)) ∧
    (window_push_all C w ts).length = min C (w.length + ts.length) ∧
    (window_push_all C w ts).length ≤ C ∧
    (C < ts.length →
      (window_push_all C w ts).length = C ∧
      window_push_all C w ts = ts.drop (ts.length - C)) := by
  have h := window_push_all_eq C w ts hw
  have hd : (w.length + ts.length) - min C (w.length + ts.length) = (w ++ ts).length - C := by
    rw [List.length_append]
    omega
  have hlen : (window_push_all C w ts).length = min C (w.length + ts.length) := by
    rw [h, List.length_drop, List.length_append]
    omega
  refine ⟨by rw [hd]; exact h, hlen, by rw [hlen]; exact min_le_left _ _, ?_⟩
  intro hN
  refine ⟨by rw [hlen]; omega, ?_⟩
  rw [h, List.drop_append_eq_append_drop, List.length_append]
  have h1 : List.drop (w.length + ts.length - C) w = [] :=
    List.drop_eq_nil_iff.mpr (by omega)
  have h2 : w.length + ts.length - C - w.length = ts.length - C := by omega
  rw [h1, h2]
  rfl

/-- C9 at a concrete input: capacity `3`, window `[1, 2]`, four pushes. -/
theorem C9_window_bound_witness :
    [(1 : Int), 2].length ≤ 3 ∧ (3 < [(3 : Int), 4, 5, 6].length) ∧
      window_push_all 3 [1, 2] [3, 4, 5, 6] = [4, 5, 6] := by
  refine ⟨by decide, by decide, ?_⟩
  rw [((C9_window_bound 3 [1, 2] [3, 4, 5, 6] (by decide)).2.2.2 (by decide)).2]
  rfl

/-- C10, the code at a failing input: the second prompt chunk fails to evaluate, yet the turn
goes on to request logits and to call `sample_next_token` twice, evaluates the two sampled
tokens, and appends an assistant message with the generated text to the history. -/
theorem C10_prompt_failure_still_generates :
    prompt_failure_turn.map (fun s => s.trace.filterMap Event.eval_summary) =
      some [(512, true), (88, false), (1, true), (1, true)] ∧
    prompt_failure_turn.map (fun s => s.trace.filter Event.is_sampling) =
      some [Event.logits, Event.sample 1, Event.logits, Event.sample 1] ∧
    prompt_failure_turn.map (fun s => s.out_tokens) = some [1, 1] ∧
    prompt_failure_turn.map (fun s => s.history) =
      some [⟨"system", "You are a helpful assistant."⟩, ⟨"user", "hi"⟩, ⟨"assistant", "aa"⟩] := by
  refine ⟨by decide!, by decide!, by decide!, by decide!⟩

/-- C11: generation-step failure.  For every backend with non-empty logits a turn returns, and
when the evaluation of a freshly sampled (non end-of-sequence) token `next` fails, which is
exactly when the generation error message is printed, the events of the turn end right after
that evaluation (no further logits, no further sample), and the one assistant message
appended to the history is the concatenation, in order, of the pieces of all tokens streamed
in the turn, the piece of `next` included. -/
theorem C11_generation_failure {β σ : Type} (L : StdLib σ) (B : ModelBackend β)
    (args : CliArgs) (user_input : String) (s : Session β σ)
    (hlog : ∀ b, (B.logits b).1 ≠ []) :
    ∃ (s2 : Session β σ) (k : Nat) (failed : Bool) (steps : List (Int × String))
      (e : DecodeEnd),
      turn L B args user_input s = some s2 ∧
      s2.trace = s.trace ++
        turn_events (build_prompt (s.history ++ [⟨"user", user_input⟩]))
          (turn_prompt_tokens B user_input s) k failed
          (B.eos_token (turn_ingested B user_input s).backend) steps e ∧
      s2.history = s.history ++ [⟨"user", user_input⟩,
        ⟨"assistant", join_pieces (steps.map Prod.snd) ++ e.text⟩] ∧
      (Event.cerr "\nEval error during generation.\n" ∈
          turn_events (build_prompt (s.history ++ [⟨"user", user_input⟩]))
            (turn_prompt_tokens B user_input s) k failed
            (B.eos_token (turn_ingested B user_input s).backend) steps e ↔
        ∃ next piece, e = DecodeEnd.failed next piece) ∧
      ∀ next piece, e = DecodeEnd.failed next piece →
        next ≠ B.eos_token (turn_ingested B user_input s).backend ∧
        (∃ before, s2.trace = before ++ (steps.map step_events).flatten ++
          [Event.logits, Event.sample next, Event.detokenize [next], Event.cout piece,
            Event.eval [next] false, Event.cerr "\nEval error during generation.\n",
            Event.cout "\n"]) ∧
        s2.out_tokens = steps.map Prod.fst ++ [next] ∧
        s2.history = s.history ++ [⟨"user", user_input⟩,
          ⟨"assistant", join_pieces (steps.map Prod.snd ++ [piece])⟩] := by
  obtain ⟨s2, k, failed, steps, e, h1, _, _, _, h5, h6, h7, _, _, _, _, h12⟩ :=
    turn_run L B args user_input s hlog
  refine ⟨s2, k, failed, steps, e, h1, h5, h6, cerr_generation_mem_turn _ _ _ _ _ _ _, ?_⟩
  intro next piece he
  subst he
  refine ⟨h12 next piece rfl, ?_, by rw [h7]; rfl, ?_⟩
  · refine ⟨s.trace ++ ([Event.tokenize (build_prompt (s.history ++ [⟨"user", user_input⟩])),
      Event.reset] ++ ingest_events (turn_prompt_tokens B user_input s) k failed ++
      [Event.cout "Assistant> "]), ?_⟩
    rw [h5]
    simp [turn_events, decode_events, DecodeEnd.events, List.append_assoc]
  · rw [h6, join_pieces_append]
    simp [join_pieces, DecodeEnd.text]

/-- C11 at a concrete input: the second sampled token fails to evaluate; both pieces are in
the assistant message and nothing is sampled afterwards. -/
theorem C11_generation_failure_witness :
    (∀ b, ((scripted_backend [7, 7] [2] [0, 1] 0).logits b).1 ≠ []) ∧
    ∃ s2, generation_failure_turn = some s2 ∧
      s2.history = [⟨"system", "You are a helpful assistant."⟩, ⟨"user", "hi"⟩,
        ⟨"assistant", "aa"⟩] ∧
      s2.trace.filterMap Event.eval_summary = [(2, true), (1, true), (1, false)] ∧
      s2.trace.filter Event.is_sample = [Event.sample 1, Event.sample 1] := by
  refine ⟨fun _ => List.cons_ne_nil _ _, ?_⟩
  obtain ⟨s2, _, _, _, _, hturn, _⟩ := C11_generation_failure refStd
    (scripted_backend [7, 7] [2] [0, 1] 0) { max_new_tokens := 3, temperature := 0 } "hi"
    initial_session (fun _ => List.cons_ne_nil _ _)
  have e1 : generation_failure_turn.map (fun s => s.history) =
      some [⟨"system", "You are a helpful assistant."⟩, ⟨"user", "hi"⟩, ⟨"assistant", "aa"⟩] := by
    decide!
  have e2 : generation_failure_turn.map (fun s => s.trace.filterMap Event.eval_summary) =
      some [(2, true), (1, true), (1, false)] := by decide!
  have e3 : generation_failure_turn.map (fun s => s.trace.filter Event.is_sample) =
      some [Event.sample 1, Event.sample 1] := by decide!
  have hturn2 : generation_failure_turn = some s2 := hturn
  rw [hturn2] at e1 e2 e3
  exact ⟨s2, hturn2, Option.some.inj e1, Option.some.inj e2, Option.some.inj e3⟩

/-- C12: end of sequence.  For every backend with non-empty logits a turn returns; the
end-of-sequence token is never appended to `out_tokens`, never detokenized and never
evaluated by the decode loop; it is recorded as sampled exactly when the loop ended by
sampling it, and then the events of the turn end with that sample (nothing is sampled,
streamed or evaluated after it), `out_tokens` and the assistant text hold only the tokens of
the completed steps, and only those tokens were pushed into the window. -/
theorem C12_end_of_sequence {β σ : Type} (L : StdLib σ) (B : ModelBackend β)
    (args : CliArgs) (user_input : String) (s : Session β σ)
    (hlog : ∀ b, (B.logits b).1 ≠ []) :
    ∃ (s2 : Session β σ) (k : Nat) (failed : Bool) (steps : List (Int × String))
      (e : DecodeEnd),
      turn L B args user_input s = some s2 ∧
      s2.trace = s.trace ++
        turn_events (build_prompt (s.history ++ [⟨"user", user_input⟩]))
          (turn_prompt_tokens B user_input s) k failed
          (B.eos_token (turn_ingested B user_input s).backend) steps e ∧
      B.eos_token (turn_ingested B user_input s).backend ∉ s2.out_tokens ∧
      Event.detokenize [B.eos_token (turn_ingested B user_input s).backend] ∉
        decode_events (B.eos_token (turn_ingested B user_input s).backend) steps e ∧
      (∀ ok, Event.eval [B.eos_token (turn_ingested B user_input s).backend] ok ∉
        decode_events (B.eos_token (turn_ingested B user_input s).backend) steps e) ∧
      (Event.sample (B.eos_token (turn_ingested B user_input s).backend) ∈
          turn_events (build_prompt (s.history ++ [⟨"user", user_input⟩]))
            (turn_prompt_tokens B user_input s) k failed
            (B.eos_token (turn_ingested B user_input s).backend) steps e ↔
        e = DecodeEnd.eos) ∧
      (e = DecodeEnd.eos →
        (∃ before, s2.trace = before ++ (steps.map step_events).flatten ++
          [Event.logits, Event.sample (B.eos_token (turn_ingested B user_input s).backend),
            Event.cout "\n"]) ∧
        s2.out_tokens = steps.map Prod.fst ∧
        s2.history = s.history ++ [⟨"user", user_input⟩,
          ⟨"assistant", join_pieces (steps.map Prod.snd)⟩] ∧
        s2.recent = window_push_all recent_max s.recent
          (((List.range k).map (prompt_chunk (turn_prompt_tokens B user_input s))).flatten ++
            steps.map Prod.fst)) := by
  obtain ⟨s2, k, failed, steps, e, h1, _, _, _, h5, h6, h7, h8, _, _, h11, h12⟩ :=
    turn_run L B args user_input s hlog
  refine ⟨s2, k, failed, steps, e, h1, h5, ?_, ?_, ?_,
    sample_eos_mem_turn _ _ _ _ _ _ _ h11 h12, ?_⟩
  · rw [h7, List.mem_append]
    rintro (h | h)
    · rw [List.mem_map] at h
      obtain ⟨tp, htp, heq⟩ := h
      exact h11 tp htp heq
    · cases e with
      | budget => simp [DecodeEnd.tokens] at h
      | eos => simp [DecodeEnd.tokens] at h
      | failed t p =>
        simp only [DecodeEnd.tokens, List.mem_singleton] at h
        exact h12 t p rfl h.symm
  · rw [mem_decode_events]
    rintro (⟨tp, htp, hm⟩ | hm)
    · simp only [step_events, List.mem_cons, List.mem_singleton, List.not_mem_nil] at hm
      simp at hm
      exact h11 tp htp hm.symm
    · cases e with
      | budget => simp [DecodeEnd.events] at hm
      | eos => simp [DecodeEnd.events] at hm
      | failed t p =>
        simp [DecodeEnd.events] at hm
        exact h12 t p rfl hm.symm
  · intro ok
    rw [mem_decode_events]
    rintro (⟨tp, htp, hm⟩ | hm)
    · simp [step_events] at hm
      exact h11 tp htp hm.1.symm
    · cases e with
      | budget => simp [DecodeEnd.events] at hm
      | eos => simp [DecodeEnd.events] at hm
      | failed t p =>
        simp [DecodeEnd.events] at hm
        exact h12 t p rfl hm.1.symm
  · intro he
    subst he
    refine ⟨?_, by rw [h7]; simp [DecodeEnd.tokens], by rw [h6]; simp [DecodeEnd.text], h8⟩
    refine ⟨s.trace ++ ([Event.tokenize (build_prompt (s.history ++ [⟨"user", user_input⟩])),
      Event.reset] ++ ingest_events (turn_prompt_tokens B user_input s) k failed ++
      [Event.cout "Assistant> "]), ?_⟩
    rw [h5]
    simp [turn_events, decode_events, DecodeEnd.events, List.append_assoc]

/-- C12 at a concrete input: token `1` is streamed, then the end-of-sequence token `0` is
sampled and the turn ends without it. -/
theorem C12_end_of_sequence_witness :
    (∀ b, ((scripted_backend [7, 7] [] [1, 2] 0).logits b).1 ≠ []) ∧
    ∃ s2, eos_turn = some s2 ∧
      s2.out_tokens = [1] ∧
      s2.recent = [7, 7, 1] ∧
      s2.history = [⟨"system", "You are a helpful assistant."⟩, ⟨"user", "hi"⟩,
        ⟨"assistant", "a"⟩] ∧
      s2.trace.filter Event.is_sample = [Event.sample 1, Event.sample 0] ∧
      s2.trace.filterMap Event.eval_summary = [(2, true), (1, true)] := by
  refine ⟨fun _ => List.cons_ne_nil _ _, ?_⟩
  obtain ⟨s2, _, _, _, _, hturn, _⟩ := C12_end_of_sequence refStd
    (scripted_backend [7, 7] [] [1, 2] 0)
    { max_new_tokens := 5, temperature := 0, repeat_penalty := 4 } "hi"
    initial_session (fun _ => List.cons_ne_nil _ _)
  have e1 : eos_turn.map (fun s => s.out_tokens) = some [1] := by decide!
  have e2 : eos_turn.map (fun s => s.recent) = some [7, 7, 1] := by decide!
  have e3 : eos_turn.map (fun s => s.history) =
      some [⟨"system", "You are a helpful assistant."⟩, ⟨"user", "hi"⟩, ⟨"assistant", "a"⟩] := by
    decide!
  have e4 : eos_turn.map (fun s => s.trace.filter Event.is_sample) =
      some [Event.sample 1, Event.sample 0] := by decide!
  have e5 : eos_turn.map (fun s => s.trace.filterMap Event.eval_summary) =
      some [(2, true), (1, true)] := by decide!
  have hturn2 : eos_turn = some s2 := hturn
  rw [hturn2] at e1 e2 e3 e4 e5
  exact ⟨s2, hturn2, Option.some.inj e1, Option.some.inj e2, Option.some.inj e3,
    Option.some.inj e4, Option.some.inj e5⟩

/-- C13, the claim as stated fails: in the turn whose second sampled token fails to evaluate,
the tokens handed to `eval` are `7, 7, 1, 1`, but the window ends as `[7, 7, 1]`; the token
whose evaluation failed was not pushed. -/
theorem C13_failed_token_not_recorded :
    ¬ (∀ s2, generation_failure_turn = some s2 →
        s2.recent = window_push_all recent_max initial_session.recent
          (submitted_tokens s2.trace)) := by
  intro h
  have e1 : generation_failure_turn.map (fun s => s.recent) = some [7, 7, 1] := by decide!
  have e2 : generation_failure_turn.map (fun s => window_push_all recent_max
      initial_session.recent (submitted_tokens s.trace)) = some [7, 7, 1, 1] := by decide!
  cases hT : generation_failure_turn with
  | none =>
    rw [hT] at e1
    cases e1
  | some s2 =>
    rw [hT] at e1 e2
    have h1 : s2.recent = [7, 7, 1] := Option.some.inj e1
    have h2 : window_push_all recent_max initial_session.recent (submitted_tokens s2.trace) =
        [7, 7, 1, 1] := Option.some.inj e2
    have h3 := h s2 hT
    rw [h1, h2] at h3
    exact absurd h3 (by decide)

/-- C13, amended: for every backend with non-empty logits a turn returns, and at its end the
window is the window at its start with all tokens of the successful calls of `eval` of the
turn pushed, in submission order; tokens of a failed call are not pushed.  When no call of
`eval` failed, these are all submitted tokens. -/
theorem C13_window_records_accepted {β σ : Type} (L : StdLib σ) (B : ModelBackend β)
    (args : CliArgs) (user_input : String) (s : Session β σ)
    (hlog : ∀ b, (B.logits b).1 ≠ []) :
    ∃ (s2 : Session β σ) (new : List Event),
      turn L B args user_input s = some s2 ∧
      s2.trace = s.trace ++ new ∧
      s2.recent = window_push_all recent_max s.recent (accepted_tokens new) ∧
      ((∀ c, Event.eval c false ∉ new) →
        s2.recent = window_push_all recent_max s.recent (submitted_tokens new)) := by
  obtain ⟨s2, k, failed, steps, e, h1, _, _, _, h5, _, _, h8, _⟩ :=
    turn_run L B args user_input s hlog
  have hrec : s2.recent = window_push_all recent_max s.recent
      (accepted_tokens (turn_events (build_prompt (s.history ++ [⟨"user", user_input⟩]))
        (turn_prompt_tokens B user_input s) k failed
        (B.eos_token (turn_ingested B user_input s).backend) steps e)) := by
    rw [accepted_tokens_turn, h8]
  refine ⟨s2, _, h1, h5, hrec, ?_⟩
  intro hok
  rw [hrec, accepted_eq_submitted _ hok]

/-- C13 (amended) at a concrete input: the turn whose second sampled token fails. -/
theorem C13_window_records_accepted_witness :
    (∀ b, ((scripted_backend [7, 7] [2] [0, 1] 0).logits b).1 ≠ []) ∧
    ∃ s2, generation_failure_turn = some s2 ∧
      s2.recent = [7, 7, 1] ∧ accepted_tokens s2.trace = [7, 7, 1] ∧
      submitted_tokens s2.trace = [7, 7, 1, 1] := by
  refine ⟨fun _ => List.cons_ne_nil _ _, ?_⟩
  obtain ⟨s2, _, hturn, _⟩ := C13_window_records_accepted refStd
    (scripted_backend [7, 7] [2] [0, 1] 0) { max_new_tokens := 3, temperature := 0 } "hi"
    initial_session (fun _ => List.cons_ne_nil _ _)
  have e1 : generation_failure_turn.map (fun s => s.recent) = some [7, 7, 1] := by decide!
  have e2 : generation_failure_turn.map (fun s => accepted_tokens s.trace) =
      some [7, 7, 1] := by decide!
  have e3 : generation_failure_turn.map (fun s => submitted_tokens s.trace) =
      some [7, 7, 1, 1] := by decide!
  have hturn2 : generation_failure_turn = some s2 := hturn
  rw [hturn2] at e1 e2 e3
  exact ⟨s2, hturn2, Option.some.inj e1, Option.some.inj e2, Option.some.inj e3⟩

/-- C14: prompt chunking.  The prompt loop of a turn (started at index `0` with the prompt
length as iteration bound) adds events `new`; if no call of `eval` in `new` failed, `new` is
exactly one successful call per chunk `j = 0, ..., ceil(n/512) - 1`, in increasing `j`, the
`j`-th call receiving the slice `prompt[512*j .. min(n, 512*(j+1)))`.  The number of chunks is
the least `c` with `n ≤ 512*c`; every chunk is non-empty and has at most 512 tokens; and the
chunks concatenated in order are the prompt. -/
theorem C14_prompt_chunking {β σ : Type} (B : ModelBackend β) (toks : List Int)
    (s : Session β σ) :
    (∃ new, (prompt_loop B toks toks.length 0 s).trace = s.trace ++ new ∧
      ((∀ c, Event.eval c false ∉ new) →
        new = (List.range (num_chunks toks.length)).map
          (fun j => Event.eval (prompt_chunk toks j) true))) ∧
    (toks.length ≤ 512 * num_chunks toks.length ∧
      512 * num_chunks toks.length < toks.length + 512) ∧
    (∀ j, j < num_chunks toks.length →
      prompt_chunk toks j ≠ [] ∧ (prompt_chunk toks j).length ≤ 512 ∧
      (prompt_chunk toks j).length = min toks.length (512 * (j + 1)) - 512 * j ∧
      ∀ i, i < (prompt_chunk toks j).length → (prompt_chunk toks j)[i]? = toks[512 * j + i]?) ∧
    ((List.range (num_chunks toks.length)).map (prompt_chunk toks)).flatten = toks := by
  refine ⟨?_, ?_, ?_, flatten_all_prompt_chunks toks⟩
  · obtain ⟨k, failed, _, _, h3, h4, h5, _⟩ :=
      prompt_loop_run B toks toks.length 0 s (by omega) (Nat.zero_le _)
    have h0 : chunk * 0 = 0 := rfl
    rw [h0] at h5
    simp only [Nat.sub_zero, ← List.range_eq_range'] at h5
    refine ⟨_, h5, ?_⟩
    intro hok
    cases failed with
    | true =>
      exact absurd (by simp) (hok (prompt_chunk toks k))
    | false =>
      rw [h4 rfl]
      simp
  · simp only [num_chunks, chunk]
    omega
  · intro j hj
    have hlt := (lt_num_chunks_iff _ _).mp hj
    have hlen := length_prompt_chunk toks j
    have hc : chunk = 512 := rfl
    rw [hc] at hlt hlen
    refine ⟨?_, by omega, hlen, ?_⟩
    · intro hnil
      rw [hnil] at hlen
      simp only [List.length_nil] at hlen
      omega
    · intro i hi
      rw [prompt_chunk_eq_take, hc, List.getElem?_take_of_lt, List.getElem?_drop]
      rw [prompt_chunk_eq_take, hc, List.length_take] at hi
      omega

/-- C14 at a concrete input: a prompt of 600 tokens is evaluated as a chunk of 512 and a
chunk of 88 tokens. -/
theorem C14_prompt_chunking_witness :
    num_chunks (List.replicate 600 (7 : Int)).length = 2 ∧
    two_chunk_ingestion.trace =
      [Event.eval (List.replicate 512 7) true, Event.eval (List.replicate 88 7) true] ∧
    two_chunk_ingestion.trace =
      (List.range (num_chunks (List.replicate 600 (7 : Int)).length)).map
        (fun j => Event.eval (prompt_chunk (List.replicate 600 7) j) true) := by
  have htrace : two_chunk_ingestion.trace =
      [Event.eval (List.replicate 512 7) true, Event.eval (List.replicate 88 7) true] := by
    decide!
  have hlen : (List.replicate 600 (7 : Int)).length = 600 := List.length_replicate _ _
  refine ⟨by rw [hlen]; decide, htrace, ?_⟩
  obtain ⟨new, hnew, himp⟩ := (C14_prompt_chunking (scripted_backend [] [] [0, 1] 0)
    (List.replicate 600 7) initial_session).1
  rw [hlen] at hnew
  have hnew2 : two_chunk_ingestion.trace = new := by
    have : two_chunk_ingestion.trace = initial_session.trace ++ new := hnew
    simpa [initial_session] using this
  rw [hnew2]
  apply himp
  intro c hc
  rw [← hnew2, htrace] at hc
  rcases List.mem_cons.mp hc with h | h
  · injection h with _ h2
    cases h2
  · rcases List.mem_cons.mp h with h | h
    · injection h with _ h2
      cases h2
    · cases h

/-- C15: token budget.  For every backend with non-empty logits a turn returns (the decode
loop runs at most `max_new_tokens` iterations): the events of the turn hold at most
`max_new_tokens` calls of `sample_next_token`, `out_tokens` has at most `max_new_tokens`
tokens, a turn that neither sampled the end-of-sequence token nor printed the generation
error has exactly `max_new_tokens` samples and output tokens, and with `max_new_tokens ≤ 0`
nothing is sampled. -/
theorem C15_token_budget {β σ : Type} (L : StdLib σ) (B : ModelBackend β)
    (args : CliArgs) (user_input : String) (s : Session β σ)
    (hlog : ∀ b, (B.logits b).1 ≠ []) :
    ∃ (s2 : Session β σ) (new : List Event),
      turn L B args user_input s = some s2 ∧
      s2.trace = s.trace ++ new ∧
      (new.filter Event.is_sample).length ≤ args.max_new_tokens.toNat ∧
      s2.out_tokens.length ≤ args.max_new_tokens.toNat ∧
      (Event.sample (B.eos_token (turn_ingested B user_input s).backend) ∉ new →
        Event.cerr "\nEval error during generation.\n" ∉ new →
        (new.filter Event.is_sample).length = args.max_new_tokens.toNat ∧
        s2.out_tokens.length = args.max_new_tokens.toNat) ∧
      (args.max_new_tokens ≤ 0 → new.filter Event.is_sample = [] ∧ s2.out_tokens = []) := by
  obtain ⟨s2, k, failed, steps, e, h1, _, _, _, h5, _, h7, _, h9, h10, h11, h12⟩ :=
    turn_run L B args user_input s hlog
  have hcount := filter_is_sample_turn (build_prompt (s.history ++ [⟨"user", user_input⟩]))
    (turn_prompt_tokens B user_input s) k failed
    (B.eos_token (turn_ingested B user_input s).backend) steps e
  have hout : s2.out_tokens.length = steps.length + e.tokens.length := by
    rw [h7]
    simp
  have htok := decode_end_tokens_le e
  refine ⟨s2, _, h1, h5, by rw [hcount]; exact h9, by omega, ?_, ?_⟩
  · intro hneos hnerr
    have he : e = DecodeEnd.budget := by
      cases e with
      | budget => rfl
      | eos => exact absurd ((sample_eos_mem_turn _ _ _ _ _ _ _ h11 h12).mpr rfl) hneos
      | failed t p =>
        exact absurd ((cerr_generation_mem_turn _ _ _ _ _ _ _).mpr ⟨t, p, rfl⟩) hnerr
    subst he
    have hsteps := h10 rfl
    constructor
    · rw [hcount, hsteps]
      rfl
    · rw [hout, hsteps]
      rfl
  · intro hmax
    have h0 : args.max_new_tokens.toNat = 0 := by omega
    rw [h0] at h9
    constructor
    · apply List.eq_nil_of_length_eq_zero
      rw [hcount]
      omega
    · apply List.eq_nil_of_length_eq_zero
      omega

/-- C15 at a concrete input: with a budget of two tokens and neither failure nor end of
sequence, exactly two tokens are sampled and output. -/
theorem C15_token_budget_witness :
    (∀ b, ((scripted_backend [7, 7] [] [0, 1] 0).logits b).1 ≠ []) ∧
    ∃ s2, budget_turn = some s2 ∧
      s2.out_tokens = [1, 1] ∧
      s2.trace.filter Event.is_sample = [Event.sample 1, Event.sample 1] := by
  refine ⟨fun _ => List.cons_ne_nil _ _, ?_⟩
  obtain ⟨s2, _, hturn, _⟩ := C15_token_budget refStd
    (scripted_backend [7, 7] [] [0, 1] 0) { max_new_tokens := 2, temperature := 0 } "hi"
    initial_session (fun _ => List.cons_ne_nil _ _)
  have e1 : budget_turn.map (fun s => s.out_tokens) = some [1, 1] := by decide!
  have e2 : budget_turn.map (fun s => s.trace.filter Event.is_sample) =
      some [Event.sample 1, Event.sample 1] := by decide!
  have hturn2 : budget_turn = some s2 := hturn
  rw [hturn2] at e1 e2
  exact ⟨s2, hturn2, Option.some.inj e1, Option.some.inj e2⟩

/-- C16, the claim as stated fails: with an exponential that rounds like a binary32 `exp`,
logits `[0, 10^-8]`, an empty window and the default arguments (temperature `0.7`,
`top_k = 40`, `top_p = 0.95`, `repeat_penalty = 1.1`), both weights are `1`, the nucleus
filter keeps token `0`, and `sample_next_token` returns token `0`, whose adjusted logit `0`
is below the adjusted logit `10^-8` of token `1`, the greedy arg-max. -/
theorem C16_returns_non_maximal_token :
    roundingStd.Lawful ∧ roundingStd.ExpBounds ∧
    (penalty_step [0, 1 / 100000000] [] (11 / 10) 0 0).logits = [0, 1 / 100000000] ∧
    softmax_weights roundingStd (penalty_step [0, 1 / 100000000] [] (11 / 10) 0 0).logits
      (7 / 10) = [1, 1] ∧
    greedy_argmax (penalty_step [0, 1 / 100000000] [] (11 / 10) 0 0).logits = 1 ∧
    sample_next_token roundingStd [1 / 2] [0, 1 / 100000000] [] (7 / 10) 40 (19 / 20)
      (11 / 10) 0 0 = some (0, []) ∧
    (0 : ℚ) < 1 / 100000000 :=
  ⟨roundingStd_lawful, roundingStd_expBounds, by decide!, by decide!, by decide!, by decide!,
    by norm_num⟩

/-- C16, amended: nucleus collapse.  For non-empty logits, `temperature > 0`, a library
meeting the contract, an exponential with `exp 0 = 1` that is nowhere negative and at most
`1` at non-positive arguments, every `top_k` and every `top_p < 1`: the arg-max token has
weight `1`, no token has a larger weight, the nucleus filter keeps exactly one candidate,
an index of the vector of weight `1`, and `sample_next_token` returns its token whatever the
random source draws. -/
theorem C16_nucleus_collapse {σ : Type} (L : StdLib σ) (hL : L.Lawful) (hB : L.ExpBounds)
    (logits_in : List ℚ) (recent : List Int) (temperature : ℚ) (top_k : Int)
    (top_p repeat_penalty frequency_penalty presence_penalty : ℚ)
    (hne : logits_in ≠ []) (ht : 0 < temperature) (hp : top_p < 1) :
    prob_at (softmax_weights L (penalty_step logits_in recent repeat_penalty frequency_penalty
        presence_penalty).logits temperature)
      (greedy_argmax (penalty_step logits_in recent repeat_penalty frequency_penalty
        presence_penalty).logits) = 1 ∧
    (∀ (j : Nat), j < logits_in.length →
      prob_at (softmax_weights L (penalty_step logits_in recent repeat_penalty
        frequency_penalty presence_penalty).logits temperature) (j : Int) ≤ 1) ∧
    ∃ (i : Nat), i < logits_in.length ∧
      nucleus_candidates L
        (penalty_step logits_in recent repeat_penalty frequency_penalty presence_penalty).logits
        temperature top_k top_p = [((i : Int), 1)] ∧
      (∀ (u : σ → ℚ × σ) (rng : σ),
        sample_next_token { L with uniform01 := u } rng logits_in recent temperature top_k
          top_p repeat_penalty frequency_penalty presence_penalty =
            some ((i : Int), (u rng).2)) := by
  have hadj := penalty_step_logits_ne_nil logits_in recent repeat_penalty frequency_penalty
    presence_penalty hne
  have hlen : (penalty_step logits_in recent repeat_penalty frequency_penalty
      presence_penalty).logits.length = logits_in.length :=
    length_apply_repeat_frequency_presence _ _ _ _ _
  obtain ⟨rest, i, hc, hi, _⟩ := sorted_candidates_head L hL hB _ temperature top_k ht hadj
  have hnuc : nucleus_candidates L (penalty_step logits_in recent repeat_penalty
      frequency_penalty presence_penalty).logits temperature top_k top_p = [((i : Int), 1)] := by
    unfold nucleus_candidates
    rw [hc]
    exact top_p_filter_head top_p _ rest hp rfl
  refine ⟨prob_at_max_element L hB _ temperature hadj, ?_, i, by rw [← hlen]; exact hi, hnuc, ?_⟩
  · intro j hj
    have hj2 : j < (penalty_step logits_in recent repeat_penalty frequency_penalty
        presence_penalty).logits.length := by rw [hlen]; exact hj
    exact prob_at_le_one L hB _ temperature ht hadj j _ (List.getElem?_eq_getElem hj2)
  · intro u rng
    have hsum : 0 < cand_sum (nucleus_candidates L (penalty_step logits_in recent
        repeat_penalty frequency_penalty presence_penalty).logits temperature top_k top_p) := by
      rw [hnuc]
      simp [cand_sum]
    rw [sample_next_token_sampling L u rng logits_in recent temperature top_k top_p _ _ _ hne
      ht hsum]
    have hfin : final_candidates L (penalty_step logits_in recent repeat_penalty
        frequency_penalty presence_penalty).logits temperature top_k top_p =
        [((i : Int), 1)] := by
      unfold final_candidates
      rw [hnuc]
      simp [normalize, cand_sum]
    rw [hfin, draw_single]
    rfl

/-- C16 (amended) at concrete inputs: with the exact reference exponential, logits
`[1, 3, 2]`, temperature `1`, `top_p = 1/2` return token `1` for the draws `0` and `9/10`;
with the rounding exponential, logits `[0, 10^-8]` and the default arguments keep one
candidate of weight `1`. -/
theorem C16_nucleus_collapse_witness :
    ([(1 : ℚ), 3, 2] ≠ [] ∧ (0 : ℚ) < 1 ∧ (1 / 2 : ℚ) < 1) ∧
    nucleus_candidates refStd (penalty_step [1, 3, 2] [] 1 0 0).logits 1 0 (1 / 2) = [(1, 1)] ∧
    sample_next_token refStd [0] [1, 3, 2] [] 1 0 (1 / 2) 1 0 0 = some (1, []) ∧
    sample_next_token refStd [9 / 10] [1, 3, 2] [] 1 0 (1 / 2) 1 0 0 = some (1, []) ∧
    (∃ (i : Nat), i < [(1 : ℚ), 3, 2].length ∧
      nucleus_candidates refStd (penalty_step [1, 3, 2] [] 1 0 0).logits 1 0 (1 / 2) =
        [((i : Int), 1)]) ∧
    (∃ (i : Nat), i < [(0 : ℚ), 1 / 100000000].length ∧
      nucleus_candidates roundingStd (penalty_step [0, 1 / 100000000] [] (11 / 10) 0 0).logits
        (7 / 10) 40 (19 / 20) = [((i : Int), 1)]) :=
  have h := (C16_nucleus_collapse refStd refStd_lawful refStd_expBounds [1, 3, 2] [] 1 0 (1 / 2)
    1 0 0 (by decide) (by norm_num) (by norm_num)).2.2
  have h2 := (C16_nucleus_collapse roundingStd roundingStd_lawful roundingStd_expBounds
    [0, 1 / 100000000] [] (7 / 10) 40 (19 / 20) (11 / 10) 0 0 (by decide) (by norm_num)
    (by norm_num)).2.2
  ⟨⟨by decide, by norm_num, by norm_num⟩, by decide!, by decide!, by decide!,
    h.elim fun i hi => ⟨i, hi.1, hi.2.1⟩, h2.elim fun i hi => ⟨i, hi.1, hi.2.1⟩⟩

/-- C17, the claim as stated fails: with an exponential that rounds like a binary32 `exp`,
logits `[0, 10^-8]`, an empty window and the default arguments, token `1` is the only token
with the maximal adjusted logit and is kept by top-k, but the nucleus filter keeps token `0`
alone: the token with the maximal adjusted logit is not retained. -/
theorem C17_maximal_token_not_retained :
    roundingStd.Lawful ∧ roundingStd.ExpBounds ∧
    (penalty_step [0, 1 / 100000000] [] (11 / 10) 0 0).logits = [0, 1 / 100000000] ∧
    (0 : ℚ) < 1 / 100000000 ∧
    greedy_argmax (penalty_step [0, 1 / 100000000] [] (11 / 10) 0 0).logits = 1 ∧
    sorted_candidates roundingStd (softmax_weights roundingStd
      (penalty_step [0, 1 / 100000000] [] (11 / 10) 0 0).logits (7 / 10)) 40 =
        [(0, 1), (1, 1)] ∧
    nucleus_candidates roundingStd (penalty_step [0, 1 / 100000000] [] (11 / 10) 0 0).logits
      (7 / 10) 40 (19 / 20) = [(0, 1)] ∧
    (1 : Int) ∉ (nucleus_candidates roundingStd
      (penalty_step [0, 1 / 100000000] [] (11 / 10) 0 0).logits (7 / 10) 40 (19 / 20)).map
        Prod.fst :=
  ⟨roundingStd_lawful, roundingStd_expBounds, by decide!, by norm_num, by decide!, by decide!,
    by decide!, by decide!⟩

/-- C17, amended: dead fallback.  For non-empty logits, `temperature > 0`, a library meeting
the contract, an exponential with `exp 0 = 1` that is nowhere negative and at most `1` at
non-positive arguments, and every `top_k` and `top_p`: the arg-max token has weight exactly
`1`; the first candidate kept by top-k and by the nucleus filter is an index of the vector of
weight exactly `1`; so the retained weights sum to at least `1`, and `sample_next_token`
never takes the `sum <= 0` branch: its result is the draw from the normalised candidates. -/
theorem C17_dead_fallback {σ : Type} (L : StdLib σ) (hL : L.Lawful) (hB : L.ExpBounds)
    (logits_in : List ℚ) (recent : List Int) (temperature : ℚ) (top_k : Int)
    (top_p repeat_penalty frequency_penalty presence_penalty : ℚ)
    (hne : logits_in ≠ []) (ht : 0 < temperature) :
    prob_at (softmax_weights L (penalty_step logits_in recent repeat_penalty frequency_penalty
        presence_penalty).logits temperature)
      (greedy_argmax (penalty_step logits_in recent repeat_penalty frequency_penalty
        presence_penalty).logits) = 1 ∧
    (∃ (i : Nat) (rest1 rest2 : List (Int × ℚ)), i < logits_in.length ∧
      sorted_candidates L (softmax_weights L (penalty_step logits_in recent repeat_penalty
        frequency_penalty presence_penalty).logits temperature) top_k =
          ((i : Int), 1) :: rest1 ∧
      nucleus_candidates L (penalty_step logits_in recent repeat_penalty frequency_penalty
        presence_penalty).logits temperature top_k top_p = ((i : Int), 1) :: rest2) ∧
    1 ≤ cand_sum (nucleus_candidates L (penalty_step logits_in recent repeat_penalty
      frequency_penalty presence_penalty).logits temperature top_k top_p) ∧
    (∀ (u : σ → ℚ × σ) (rng : σ),
      sample_next_token { L with uniform01 := u } rng logits_in recent temperature top_k
        top_p repeat_penalty frequency_penalty presence_penalty =
      (draw (final_candidates L (penalty_step logits_in recent repeat_penalty
        frequency_penalty presence_penalty).logits temperature top_k top_p) (u rng).1).map
          (fun t => (t, (u rng).2))) := by
  have hadj := penalty_step_logits_ne_nil logits_in recent repeat_penalty frequency_penalty
    presence_penalty hne
  have hlen : (penalty_step logits_in recent repeat_penalty frequency_penalty
      presence_penalty).logits.length = logits_in.length :=
    length_apply_repeat_frequency_presence _ _ _ _ _
  obtain ⟨rest, i, hc, hi, hrest⟩ := sorted_candidates_head L hL hB _ temperature top_k ht hadj
  obtain ⟨m, hm1, hm2, htake⟩ := top_p_filter_eq_take top_p
    (sorted_candidates L (softmax_weights L (penalty_step logits_in recent repeat_penalty
      frequency_penalty presence_penalty).logits temperature) top_k) (by rw [hc]; simp)
  have hnuc : nucleus_candidates L (penalty_step logits_in recent repeat_penalty
      frequency_penalty presence_penalty).logits temperature top_k top_p =
      ((i : Int), 1) :: rest.take (m - 1) := by
    unfold nucleus_candidates
    rw [htake, hc]
    obtain ⟨m2, rfl⟩ : ∃ m2, m = m2 + 1 := ⟨m - 1, by omega⟩
    simp
  have hsum : 1 ≤ cand_sum (nucleus_candidates L (penalty_step logits_in recent
      repeat_penalty frequency_penalty presence_penalty).logits temperature top_k top_p) := by
    rw [hnuc, cand_sum_eq, List.map_cons, List.sum_cons]
    have : 0 ≤ ((rest.take (m - 1)).map Prod.snd).sum := by
      apply List.sum_nonneg
      intro y hy
      rw [List.mem_map] at hy
      obtain ⟨kv2, hkv2, rfl⟩ := hy
      exact hrest kv2 (List.mem_of_mem_take hkv2)
    show (1 : ℚ) ≤ 1 + ((rest.take (m - 1)).map Prod.snd).sum
    linarith
  refine ⟨prob_at_max_element L hB _ temperature hadj,
    ⟨i, rest, rest.take (m - 1), by rw [← hlen]; exact hi, hc, hnuc⟩, hsum, ?_⟩
  intro u rng
  exact sample_next_token_sampling L u rng logits_in recent temperature top_k top_p _ _ _ hne
    ht (by linarith)

/-- C17 (amended) at concrete inputs: with the exact reference exponential, logits
`[1, 3, 2]`, temperature `1` and no filters retain the weights `1, 1/2, 1/3`, which sum to
`11/6`; with the rounding exponential, logits `[0, 10^-8]` and the default arguments retain a
sum of at least `1`. -/
theorem C17_dead_fallback_witness :
    ([(1 : ℚ), 3, 2] ≠ [] ∧ (0 : ℚ) < 1) ∧
    nucleus_candidates refStd (penalty_step [1, 3, 2] [] 1 0 0).logits 1 0 1 =
      [(1, 1), (2, 1 / 2), (0, 1 / 3)] ∧
    1 ≤ cand_sum (nucleus_candidates refStd (penalty_step [1, 3, 2] [] 1 0 0).logits 1 0 1) ∧
    1 ≤ cand_sum (nucleus_candidates roundingStd
      (penalty_step [0, 1 / 100000000] [] (11 / 10) 0 0).logits (7 / 10) 40 (19 / 20)) :=
  ⟨⟨by decide, by norm_num⟩, by decide!,
    (C17_dead_fallback refStd refStd_lawful refStd_expBounds [1, 3, 2] [] 1 0 1 1 0 0
      (by decide) (by norm_num)).2.2.1,
    (C17_dead_fallback roundingStd roundingStd_lawful roundingStd_expBounds
      [0, 1 / 100000000] [] (7 / 10) 40 (19 / 20) (11 / 10) 0 0
      (by decide) (by norm_num)).2.2.1⟩

/-- The token returned by `sample_next_token` on non-empty logits is an index of the vector,
for every library meeting the contract and whatever the random source draws. -/
theorem sample_next_token_range {σ : Type} (L : StdLib σ) (hL : L.Lawful)
    (u : σ → ℚ × σ) (rng : σ) (logits_in : List ℚ) (recent : List Int) (temperature : ℚ)
    (top_k : Int) (top_p rp fp pp : ℚ) (hne : logits_in ≠ []) :
    ∃ (t : Int) (rng2 : σ),
      sample_next_token { L with uniform01 := u } rng logits_in recent temperature top_k top_p
        rp fp pp = some (t, rng2) ∧ 0 ≤ t ∧ t < (logits_in.length : Int) := by
  have hadj := penalty_step_logits_ne_nil logits_in recent rp fp pp hne
  have hlen : (penalty_step logits_in recent rp fp pp).logits.length = logits_in.length :=
    length_apply_repeat_frequency_presence _ _ _ _ _
  have hgreedy : 0 ≤ greedy_argmax (penalty_step logits_in recent rp fp pp).logits ∧
      greedy_argmax (penalty_step logits_in recent rp fp pp).logits <
        (logits_in.length : Int) := by
    have := max_element_lt_length _ hadj
    unfold greedy_argmax
    omega
  by_cases ht : temperature ≤ 0
  · exact ⟨_, rng, by simp only [sample_next_token, ht, if_true], hgreedy.1, hgreedy.2⟩
  · have hsame : nucleus_candidates { L with uniform01 := u }
        (penalty_step logits_in recent rp fp pp).logits temperature top_k top_p =
        nucleus_candidates L (penalty_step logits_in recent rp fp pp).logits temperature
          top_k top_p := rfl
    by_cases hsum : cand_sum (nucleus_candidates L (penalty_step logits_in recent rp fp
        pp).logits temperature top_k top_p) ≤ 0
    · exact ⟨_, rng, by simp only [sample_next_token, ht, hadj, hsame, hsum, if_true, if_false],
        hgreedy.1, hgreedy.2⟩
    · have hfin : final_candidates L (penalty_step logits_in recent rp fp pp).logits
          temperature top_k top_p ≠ [] := by
        have h0 := (nucleus_candidates_initial L hL _ temperature top_k top_p hadj).1
        simpa [final_candidates, normalize] using h0
      obtain ⟨kv, hkv, hd⟩ := draw_mem _ (u rng).1 hfin
      refine ⟨kv.1, (u rng).2, ?_, ?_⟩
      · rw [sample_next_token_sampling L u rng logits_in recent temperature top_k top_p _ _ _
          hne (not_le.mp ht) (not_le.mp hsum), hd]
        rfl
      · simp only [final_candidates, normalize, List.mem_map] at hkv
        obtain ⟨kv0, hkv0, rfl⟩ := hkv
        have := nucleus_candidates_range L hL _ temperature top_k top_p hadj kv0 hkv0
        rw [hlen] at this
        exact ⟨this.1, this.2.1⟩

/-- C18: valid token.  For non-empty logits of size `n`, a library meeting the contract and
all values of the window, temperature, `top_k`, `top_p`, the penalties and the random draw,
`sample_next_token` returns an index `t` with `0 ≤ t < n`; and every candidate left after the
top-k and nucleus resize steps is an index of the vector carrying its own weight. -/
theorem C18_valid_token {σ : Type} (L : StdLib σ) (hL : L.Lawful)
    (logits_in : List ℚ) (recent : List Int) (temperature : ℚ) (top_k : Int)
    (top_p repeat_penalty frequency_penalty presence_penalty : ℚ) (hne : logits_in ≠ []) :
    (∀ (u : σ → ℚ × σ) (rng : σ), ∃ (t : Int) (rng2 : σ),
      sample_next_token { L with uniform01 := u } rng logits_in recent temperature top_k top_p
        repeat_penalty frequency_penalty presence_penalty = some (t, rng2) ∧
      0 ≤ t ∧ t < (logits_in.length : Int)) ∧
    (∀ kv ∈ nucleus_candidates L (penalty_step logits_in recent repeat_penalty
        frequency_penalty presence_penalty).logits temperature top_k top_p,
      0 ≤ kv.1 ∧ kv.1 < (logits_in.length : Int) ∧
      kv.2 = prob_at (softmax_weights L (penalty_step logits_in recent repeat_penalty
        frequency_penalty presence_penalty).logits temperature) kv.1) := by
  constructor
  · intro u rng
    exact sample_next_token_range L hL u rng logits_in recent temperature top_k top_p _ _ _ hne
  · intro kv hkv
    have hadj := penalty_step_logits_ne_nil logits_in recent repeat_penalty frequency_penalty
      presence_penalty hne
    have := nucleus_candidates_range L hL _ temperature top_k top_p hadj kv hkv
    rw [show (penalty_step logits_in recent repeat_penalty frequency_penalty
      presence_penalty).logits.length = logits_in.length from
      length_apply_repeat_frequency_presence _ _ _ _ _] at this
    exact this

/-- C18 at concrete inputs: negative `top_k`, `top_p` above `1` and at `0`, and a random
draw outside `[0, 1)` still give a token in `0, 1, 2`. -/
theorem C18_valid_token_witness :
    [(1 : ℚ), 3, 2] ≠ [] ∧
    sample_next_token refStd [19 / 20] [1, 3, 2] [0, 0] 1 (-3) 2 2 1 1 = some (0, []) ∧
    sample_next_token refStd [1 / 2] [1, 3, 2] [1] 1 5 0 2 0 0 = some (2, []) ∧
    ∃ (t : Int) (rng2 : List ℚ),
      sample_next_token { refStd with uniform01 := fun rng => (7, rng) } [] [1, 3, 2] [] 1 2 1
        1 0 0 = some (t, rng2) ∧ 0 ≤ t ∧ t < (([(1 : ℚ), 3, 2].length : Nat) : Int) :=
  ⟨by decide, by decide!, by decide!,
    (C18_valid_token refStd refStd_lawful [1, 3, 2] [] 1 2 1 1 0 0 (by decide)).1
      (fun rng => (7, rng)) []⟩

/-- C19: prompt growth.  Appending an assistant message `c` to a history appends `c` and a
newline to the prompt; appending a user message `c` to a history that already holds a user
message appends `[INST] c [/INST]` and a newline; hence the prompt of a turn (history ending
with the user message `u`) is an initial part of the prompt of the next turn (the same
history followed by the assistant reply `a` and the next user message). -/
theorem C19_prompt_growth :
    (∀ (h : List ChatMessage) (c : String),
      build_prompt (h ++ [⟨"assistant", c⟩]) = build_prompt h ++ c ++ "\n") ∧
    (∀ (h : List ChatMessage) (c : String), (∃ m ∈ h, m.role = "user") →
      build_prompt (h ++ [⟨"user", c⟩]) = build_prompt h ++ "[INST] " ++ c ++ " [/INST]\n") ∧
    (∀ (h : List ChatMessage) (u a u2 : String),
      build_prompt (h ++ [⟨"user", u⟩, ⟨"assistant", a⟩] ++ [⟨"user", u2⟩]) =
        build_prompt (h ++ [⟨"user", u⟩]) ++ (a ++ "\n" ++ "[INST] " ++ u2 ++ " [/INST]\n")) := by
  refine ⟨build_prompt_append_assistant, build_prompt_append_user, ?_⟩
  intro h u a u2
  rw [build_prompt_append_user _ u2 ⟨⟨"user", u⟩, by simp, rfl⟩]
  have : h ++ [(⟨"user", u⟩ : ChatMessage), ⟨"assistant", a⟩] =
      (h ++ [⟨"user", u⟩]) ++ [⟨"assistant", a⟩] := by simp
  rw [this, build_prompt_append_assistant]
  simp [String.append_assoc]

/-- C19 at a concrete input: the second prompt of a session extends the first. -/
theorem C19_prompt_growth_witness :
    (∃ m ∈ [(⟨"system", "S"⟩ : ChatMessage), ⟨"user", "hi"⟩, ⟨"assistant", "yo"⟩],
      m.role = "user") ∧
    build_prompt [⟨"system", "S"⟩, ⟨"user", "hi"⟩] = "[INST] <<SYS>>\nS\n<</SYS>>\nhi [/INST]\n" ∧
    build_prompt ([⟨"system", "S"⟩, ⟨"user", "hi"⟩, ⟨"assistant", "yo"⟩] ++ [⟨"user", "more"⟩]) =
      build_prompt [⟨"system", "S"⟩, ⟨"user", "hi"⟩, ⟨"assistant", "yo"⟩] ++ "[INST] " ++ "more" ++
        " [/INST]\n" :=
  ⟨⟨⟨"user", "hi"⟩, by simp, rfl⟩, by decide,
    C19_prompt_growth.2.1 [⟨"system", "S"⟩, ⟨"user", "hi"⟩, ⟨"assistant", "yo"⟩] "more"
      ⟨⟨"user", "hi"⟩, by simp, rfl⟩⟩

/-- C20: backend position counter.  In `LlamaBackend`, `eval` of a non-empty list of `k`
tokens hands `llama_decode` these tokens with the positions `pos_, pos_ + 1, ...,
pos_ + k - 1` and leaves the counter at `pos_ + k` whatever `llama_decode` returns; `eval` of
an empty list succeeds and changes nothing; `reset` leaves the counter as it was; hence in
every session of `eval` and `reset` calls on a backend whose counter starts at `0`, the
`i`-th submitted token gets position `i`: positions never restart after `reset`. -/
theorem C20_position_counter {κ : Type} (A : LlamaApi κ) :
    (∀ (b : LlamaBackend κ) (tokens : List Int), tokens ≠ [] →
      (LlamaBackend.fill_batch b.pos_ tokens.length 0 tokens).map (fun e => e.pos) =
        (List.range tokens.length).map (fun (j : Nat) => b.pos_ + (j : Int)) ∧
      (LlamaBackend.fill_batch b.pos_ tokens.length 0 tokens).map (fun e => e.token) = tokens ∧
      (LlamaBackend.eval A b tokens).1 = decide ((A.llama_decode b.ctx_
        (LlamaBackend.fill_batch b.pos_ tokens.length 0 tokens)).1 = 0) ∧
      (LlamaBackend.eval A b tokens).2.pos_ = b.pos_ + (tokens.length : Int)) ∧
    (∀ (b : LlamaBackend κ), LlamaBackend.eval A b [] = (true, b)) ∧
    (∀ (b : LlamaBackend κ), (LlamaBackend.reset A b).pos_ = b.pos_) ∧
    (∀ (b : LlamaBackend κ) (calls : List BackendCall), b.pos_ = 0 →
      (LlamaBackend.run A b calls).2.map (fun e => e.pos) =
        (List.range (BackendCall.tokens calls).length).map Int.ofNat ∧
      (LlamaBackend.run A b calls).2.map (fun e => e.token) = BackendCall.tokens calls ∧
      (LlamaBackend.run A b calls).1.pos_ = ((BackendCall.tokens calls).length : Int)) := by
  refine ⟨?_, fun b => rfl, fun b => rfl, ?_⟩
  · intro b tokens hne
    refine ⟨?_, fill_batch_token _ _ _ _, ?_, eval_pos A b tokens⟩
    · rw [fill_batch_pos, List.range_eq_range']
    · cases tokens with
      | nil => exact absurd rfl hne
      | cons t ts => rfl
  · intro b calls hb
    obtain ⟨h1, h2, h3⟩ := run_positions A b calls
    rw [hb] at h1 h3
    refine ⟨?_, h2, by simpa using h3⟩
    rw [h1]
    apply List.map_congr_left
    intro j _
    simp

/-- C20 at a concrete input: `llama_decode` always fails, two tokens are submitted, the
backend is reset, then one more token is submitted; the positions are `0, 1, 2`. -/
theorem C20_position_counter_witness :
    ([(5 : Int), 6] ≠ [] ∧ (⟨(), 0⟩ : LlamaBackend Unit).pos_ = 0) ∧
    (LlamaBackend.eval failing_llama ⟨(), 0⟩ [5, 6]).1 = false ∧
    (LlamaBackend.eval failing_llama ⟨(), 0⟩ [5, 6]).2.pos_ = 2 ∧
    (LlamaBackend.run failing_llama ⟨(), 0⟩
      [BackendCall.eval [5, 6], BackendCall.reset, BackendCall.eval [],
        BackendCall.eval [7]]).2.map (fun e => (e.token, e.pos)) = [(5, 0), (6, 1), (7, 2)] ∧
    (LlamaBackend.run failing_llama ⟨(), 0⟩
      [BackendCall.eval [5, 6], BackendCall.reset, BackendCall.eval [],
        BackendCall.eval [7]]).2.map (fun e => e.pos) =
      (List.range (BackendCall.tokens [BackendCall.eval [5, 6], BackendCall.reset,
        BackendCall.eval [], BackendCall.eval [7]]).length).map Int.ofNat :=
  ⟨⟨by decide, rfl⟩, by decide, by decide, by decide,
    ((C20_position_counter failing_llama).2.2.2 ⟨(), 0⟩
      [BackendCall.eval [5, 6], BackendCall.reset, BackendCall.eval [], BackendCall.eval [7]]
      rfl).1⟩

end Tokchat
